import Mathlib

/-!
Verification of the hanzi-search IDS (Ideographic Description Sequence)
engine: a shallow embedding of `src/ids.rs` / `src/lib.rs` (data model,
grammar parser, decomposition table loader and the three matching
predicates) together with proofs about the embedded code.

The Rust matching predicates recurse through the decomposition table, so
they are not structurally recursive; they are embedded as fuel-indexed
functions whose `.error .fuelOut` value means "the recursion has not
finished within the given call depth".  A Rust run that terminates is a
run where some fuel returns a proper value; a Rust panic is modelled by
`.error .panicked`.
-/

set_option maxHeartbeats 1000000

namespace HanziSearch

/-- The closed set of ideographic description characters, from `ENCODED_IDC`. -/
def ENCODED_IDC : List Char :=
  ['⿰','⿱','⿲','⿳','⿴','⿵','⿶','⿷','⿸','⿹','⿺','⿻','⿼','⿽','⿾','⿿','㇯']

/-- `idc_arity` from the source: ⿾ and ⿿ are unary, ⿲ and ⿳ ternary, all else binary. -/
def idc_arity (c : Char) : Nat :=
  if c = '⿾' ∨ c = '⿿' then 1
  else if c = '⿲' ∨ c = '⿳' then 3
  else 2

/-- `is_idc` from the source. -/
def is_idc (c : Char) : Bool := ENCODED_IDC.contains c

/-- The `IDC` newtype over a description-operator codepoint. -/
structure IDC where
  c : Char
deriving DecidableEq, Repr

/-- `IDC::arity`. -/
def IDC.arity (i : IDC) : Nat := idc_arity i.c

/-- `IDC::reduce`: the binary same-direction counterpart of a ternary operator. -/
def IDC.reduce (i : IDC) : Option IDC :=
  if i.c = '⿲' then some ⟨'⿰'⟩
  else if i.c = '⿳' then some ⟨'⿱'⟩
  else none

/-- The `Direction` enum. -/
inductive Direction
  | Vert
  | Hort
  | Other
deriving DecidableEq, Repr

/-- `IDC::direction`. -/
def IDC.direction (i : IDC) : Direction :=
  if i.c = '⿰' ∨ i.c = '⿲' then .Hort
  else if i.c = '⿱' ∨ i.c = '⿳' then .Vert
  else .Other

/-- `IDC::is_same_direction`. -/
def IDC.is_same_direction (i j : IDC) : Bool := decide (i.direction = j.direction)

/-- The `IDS` decomposition-tree enum: `Char` atoms, `Special` opaque
components, and `Composition` nodes with an operator and ordered children. -/
inductive IDS
  | Char (c : Char)
  | Special (s : String)
  | Composition (idc : IDC) (children : List IDS)
deriving Repr

/-- The `Tag` enum: a `Variant` carries the source label, an `Anon` tag its index. -/
inductive Tag
  | Variant (s : String)
  | Anon (n : Nat)
deriving DecidableEq, Repr

/-- The `TaggedIDS` record: a tree together with its tag. -/
structure TaggedIDS where
  ids : IDS
  tag : Tag
deriving Repr

/-! Structural equality of trees (the Rust `PartialEq`/`Eq` derive), written
by hand because the nested `List IDS` defeats automatic derivation. -/

mutual

def idec : (a b : IDS) → Decidable (a = b)
  | .Char a, .Char b =>
    match decEq a b with
    | isTrue h => isTrue (by rw [h])
    | isFalse h => isFalse (fun hh => by cases hh; exact h rfl)
  | .Special s, .Special t =>
    match decEq s t with
    | isTrue h => isTrue (by rw [h])
    | isFalse h => isFalse (fun hh => by cases hh; exact h rfl)
  | .Composition i cs, .Composition j ds =>
    match decEq i j, ldec cs ds with
    | isTrue h1, isTrue h2 => isTrue (by rw [h1, h2])
    | isFalse h1, _ => isFalse (fun hh => by cases hh; exact h1 rfl)
    | isTrue _, isFalse h2 => isFalse (fun hh => by cases hh; exact h2 rfl)
  | .Char _, .Special _ => isFalse (fun hh => IDS.noConfusion hh)
  | .Char _, .Composition _ _ => isFalse (fun hh => IDS.noConfusion hh)
  | .Special _, .Char _ => isFalse (fun hh => IDS.noConfusion hh)
  | .Special _, .Composition _ _ => isFalse (fun hh => IDS.noConfusion hh)
  | .Composition _ _, .Char _ => isFalse (fun hh => IDS.noConfusion hh)
  | .Composition _ _, .Special _ => isFalse (fun hh => IDS.noConfusion hh)

def ldec : (xs ys : List IDS) → Decidable (xs = ys)
  | [], [] => isTrue rfl
  | x :: xs, y :: ys =>
    match idec x y, ldec xs ys with
    | isTrue h1, isTrue h2 => isTrue (by rw [h1, h2])
    | isFalse h1, _ => isFalse (fun hh => by cases hh; exact h1 rfl)
    | isTrue _, isFalse h2 => isFalse (fun hh => by cases hh; exact h2 rfl)
  | [], _ :: _ => isFalse (fun hh => List.noConfusion hh)
  | _ :: _, [] => isFalse (fun hh => List.noConfusion hh)

end

instance : DecidableEq IDS := idec

instance : DecidableEq TaggedIDS :=
  fun a b => decidable_of_iff (a.ids = b.ids ∧ a.tag = b.tag) (by cases a; cases b; simp)

/-! Rendering: the `Display` impl for `IDS` (an atom prints as its character,
an opaque component as its label in braces, a composition as the operator
codepoint followed by the rendered children). -/

mutual

def renderL : IDS → List Char
  | .Char k => [k]
  | .Special s => '{' :: s.data ++ ['}']
  | .Composition idc children => idc.c :: renderM children

def renderM : List IDS → List Char
  | [] => []
  | t :: ts => renderL t ++ renderM ts

end

def render (t : IDS) : String := ⟨renderL t⟩

/-! Tree measures used by the termination arguments. -/

mutual

def sizeI : IDS → Nat
  | .Char _ => 1
  | .Special _ => 1
  | .Composition _ children => 1 + sizeL children

def sizeL : List IDS → Nat
  | [] => 0
  | t :: ts => sizeI t + sizeL ts

end

mutual

def atomsOf : IDS → List Char
  | .Char c => [c]
  | .Special _ => []
  | .Composition _ children => atomsL children

def atomsL : List IDS → List Char
  | [] => []
  | t :: ts => atomsOf t ++ atomsL ts

end

/-! Well-formedness: every composition node has exactly as many children as
its operator's arity (the invariant the grammar parser guarantees). -/

mutual

def WFb : IDS → Bool
  | .Char _ => true
  | .Special _ => true
  | .Composition idc children => decide (children.length = idc.arity) && WFlist children

def WFlist : List IDS → Bool
  | [] => true
  | t :: ts => WFb t && WFlist ts

end

/-! The grammar parser (`parser_tag`, `parser_special`, `parser_char`,
`parser_composition`, `parser_ids`, `parser_tagged_ids`, `parse`,
`parse_tagged` from the source).  The nom combinators act on the remaining
input; here a parser maps a `List Char` to `Option (result × rest)`.
`parser_ids` is recursive through `parser_composition`; the Lean version is
indexed by a fuel that strictly exceeds the recursion depth.  Each
`parser_ids` call consumes at least one character before recursing into a
child, so a fuel above the input length is never exhausted; all entry points
run with `input.length + 1`. -/

def parser_tag : List Char → Option (String × List Char)
  | '[' :: rest =>
    match rest.takeWhile (fun c => decide (c ≠ ']')) with
    | [] => none
    | taken =>
      match rest.dropWhile (fun c => decide (c ≠ ']')) with
      | ']' :: rest2 => some (⟨taken⟩, rest2)
      | _ => none
  | _ => none

def parser_special : List Char → Option (IDS × List Char)
  | '{' :: rest =>
    match rest.takeWhile (fun c => decide (c ≠ '}')) with
    | [] => none
    | taken =>
      match rest.dropWhile (fun c => decide (c ≠ '}')) with
      | '}' :: rest2 => some (.Special ⟨taken⟩, rest2)
      | _ => none
  | _ => none

def parser_char : List Char → Option (IDS × List Char)
  | c :: rest => if ¬ is_idc c ∧ c ≠ '{' ∧ c ≠ '[' then some (.Char c, rest) else none
  | [] => none

/-- `many_m_n(arity, arity, parser_ids)`: run the child parser `p` exactly
`n` times, threading the rest of the input. -/
def parser_many (p : List Char → Option (IDS × List Char)) :
    Nat → List Char → Option (List IDS × List Char)
  | 0, input => some ([], input)
  | n + 1, input =>
    match p input with
    | some (t, rest) =>
      match parser_many p n rest with
      | some (ts, rest2) => some (t :: ts, rest2)
      | none => none
    | none => none

def parser_composition (p : List Char → Option (IDS × List Char)) :
    List Char → Option (IDS × List Char)
  | c :: rest =>
    if is_idc c then
      match parser_many p (idc_arity c) rest with
      | some (children, rest2) => some (.Composition ⟨c⟩ children, rest2)
      | none => none
    else none
  | [] => none

/-- `alt((parser_composition, parser_special, parser_char))`, fuel-indexed. -/
def parser_ids : Nat → List Char → Option (IDS × List Char)
  | 0, _ => none
  | fuel + 1, input =>
    match parser_composition (parser_ids fuel) input with
    | some r => some r
    | none =>
      match parser_special input with
      | some r => some r
      | none => parser_char input

/-- `(parser_ids, opt(parser_tag), eof)`: an absent tag bracket yields the
empty `Variant` label (`tag.unwrap_or_default()`). -/
def parser_tagged_ids (fuel : Nat) (input : List Char) : Option (TaggedIDS × List Char) :=
  match parser_ids fuel input with
  | none => none
  | some (ids, rest) =>
    match parser_tag rest with
    | some (tag, rest2) => if rest2 = [] then some (⟨ids, .Variant tag⟩, []) else none
    | none => if rest = [] then some (⟨ids, .Variant ""⟩, []) else none

/-- `parse`: full-input tree parse (the `Err` payloads of the Rust function
carry only messages, so failure is modelled as `none`). -/
def parse (input : String) : Option IDS :=
  match parser_ids (input.length + 1) input.data with
  | some (ids, []) => some ids
  | some _ => none
  | none => none

/-- `parse_tagged`: full-input tagged parse. -/
def parse_tagged (input : String) : Option TaggedIDS :=
  match parser_tagged_ids (input.length + 1) input.data with
  | some (tids, []) => some tids
  | some _ => none
  | none => none

/-! The decomposition table.  The Rust `IDSTable` holds two hash maps; they
are embedded as association lists with the usual lookup/insert operations
(hash maps have unique keys, which insertion below preserves; iteration
order is unspecified in Rust, the list order is one representative). -/

def lookupA {α β : Type} [DecidableEq α] : List (α × β) → α → Option β
  | [], _ => none
  | (k, v) :: rest, key => if k = key then some v else lookupA rest key

def insertA {α β : Type} [DecidableEq α] : List (α × β) → α → β → List (α × β)
  | [], k, v => [(k, v)]
  | (k', v') :: rest, k, v =>
    if k' = k then (k, v) :: rest else (k', v') :: insertA rest k v

/-- `IDSTable`: the `(char, Tag) → IDS` map and the per-character ordered tag
lists. -/
structure IDSTable where
  table : List ((Char × Tag) × IDS)
  tags : List (Char × List Tag)
deriving DecidableEq, Repr

def tableGet (T : IDSTable) (key : Char × Tag) : Option IDS := lookupA T.table key

def tagsGet (T : IDSTable) (c : Char) : Option (List Tag) := lookupA T.tags c

/-- `tags.entry(char).and_modify(|v| v.push(tag)).or_insert(vec![tag])`. -/
def pushTag : List (Char × List Tag) → Char → Tag → List (Char × List Tag)
  | [], c, t => [(c, [t])]
  | (c', ts) :: rest, c, t =>
    if c' = c then (c', ts ++ [t]) :: rest else (c', ts) :: pushTag rest c t

/-- One parsed tagged string inserted into the table under construction: the
shared body of the `load_file` / `load_from_string` loops.  On a key
collision the entry is stored under `Anon(tags.get(&char).unwrap().len())`
instead; the `unwrap` is a potential panic, modelled by `none`. -/
def insertTagged (st : IDSTable) (c : Char) (tids : TaggedIDS) : Option IDSTable :=
  if (lookupA st.table (c, tids.tag)).isSome then
    match lookupA st.tags c with
    | none => none
    | some l =>
      some { table := insertA st.table (c, Tag.Anon l.length) tids.ids,
             tags := pushTag st.tags c (Tag.Anon l.length) }
  else
    some { table := insertA st.table (c, tids.tag) tids.ids,
           tags := pushTag st.tags c tids.tag }

instance {ε α : Type} [DecidableEq ε] [DecidableEq α] : DecidableEq (Except ε α) :=
  fun a b =>
    match a, b with
    | .ok x, .ok y => decidable_of_iff (x = y) (by simp)
    | .error e, .error f => decidable_of_iff (e = f) (by simp)
    | .ok _, .error _ => isFalse (by simp)
    | .error _, .ok _ => isFalse (by simp)

/-- `for ids_str in parts.iter().skip(2) { ... }`: strings that fail
`parse_tagged` are skipped. -/
def processIds : IDSTable → Char → List String → Option IDSTable
  | st, _, [] => some st
  | st, c, s :: rest =>
    match parse_tagged s with
    | none => processIds st c rest
    | some tids =>
      match insertTagged st c tids with
      | none => none
      | some st2 => processIds st2 c rest

/-- Accumulator loop behind `split_whitespace`: splits at whitespace runs,
producing no empty tokens (the standard-library behaviour of
`str::split_whitespace`). -/
def splitWSAux : List Char → List Char → List String
  | [], [] => []
  | [], acc => [⟨acc.reverse⟩]
  | c :: rest, acc =>
    if c.isWhitespace then
      match acc with
      | [] => splitWSAux rest []
      | _ => (⟨acc.reverse⟩ : String) :: splitWSAux rest []
    else splitWSAux rest (c :: acc)

/-- `line.split_whitespace().collect()`. -/
def split_whitespace (line : String) : List String := splitWSAux line.data []

/-- Accumulator loop behind `linesOf`: split at `'\n'`, with no empty piece
after a trailing newline (the behaviour of `str::lines`; `'\r'` stripping
is not modelled, none of the inputs considered here contain it). -/
def linesAux : List Char → List Char → List String
  | [], [] => []
  | [], acc => [⟨acc.reverse⟩]
  | '\n' :: rest, acc => (⟨acc.reverse⟩ : String) :: linesAux rest []
  | c :: rest, acc => linesAux rest (c :: acc)

/-- `content.lines()`. -/
def linesOf (content : String) : List String := linesAux content.data []

/-- One line of `load_from_string`: records with fewer than three fields are
skipped before any indexing happens. -/
def processLine (st : IDSTable) (line : String) : Option IDSTable :=
  let parts := split_whitespace line
  if parts.length < 3 then some st
  else
    match parts.get? 1 with
    | none => none
    | some p =>
      match p.data.head? with
      | none => some st
      | some c => processIds st c (parts.drop 2)

def loadLines : IDSTable → List String → Option IDSTable
  | st, [] => some st
  | st, line :: rest =>
    match processLine st line with
    | none => none
    | some st2 => loadLines st2 rest

/-- `IDSTable::load_from_string`.  The Rust function returns
`io::Result<IDSTable>` but never constructs an `Err`; `none` here marks the
only abnormal exit, the `unwrap` panic inside `insertTagged` (shown
unreachable below). -/
def load_from_string (content : String) : Option IDSTable :=
  loadLines { table := [], tags := [] } (linesOf content)

/-- One line of `IDSTable::load_file`: unlike `load_from_string` there is no
`parts.len()` guard, so `parts[1]` panics (`none`) when a line has fewer
than two fields. -/
def processLineFile (st : IDSTable) (line : String) : Option IDSTable :=
  let parts := split_whitespace line
  match parts.get? 1 with
  | none => none
  | some p =>
    match p.data.head? with
    | none => some st
    | some c => processIds st c (parts.drop 2)

def loadLinesFile : IDSTable → List String → Option IDSTable
  | st, [] => some st
  | st, line :: rest =>
    match processLineFile st line with
    | none => none
    | some st2 => loadLinesFile st2 rest

/-- `IDSTable::load_file`, with the file already split into its lines (the
byte-stream reading itself is an external collaborator). -/
def load_file (lines : List String) : Option IDSTable :=
  loadLinesFile { table := [], tags := [] } lines

/-! The matching engine.  The three Rust predicates recurse through the
table (an atom expands to a recorded tree of arbitrary size), so they are
not structurally recursive, and out-of-bounds indexing in the regrouping
branch of `ids_match` can panic.  The embedding is fuel-indexed:
`.error .fuelOut` means the call did not finish within the fuel (a run of
the Rust code terminates iff some fuel returns another value, and diverges
iff every fuel reports `.fuelOut`), `.error .panicked` models a panic. -/

inductive MErr
  | fuelOut
  | panicked
deriving DecidableEq, Repr

def isWild (t : IDS) (w : Char) : Bool :=
  match t with
  | .Char c => c == w
  | _ => false

/-- Short-circuit `&&` over fallible booleans (a panic or a diverging
computation in the left operand propagates; the right operand is only
reached when the left yields `true`). -/
def eAnd : Except MErr Bool → Except MErr Bool → Except MErr Bool
  | .ok true, y => y
  | .ok false, _ => .ok false
  | .error e, _ => .error e

/-- Short-circuit `||` over fallible booleans. -/
def eOr : Except MErr Bool → Except MErr Bool → Except MErr Bool
  | .ok false, y => y
  | .ok true, _ => .ok true
  | .error e, _ => .error e

/-- The tag loop in `ids_match` / `ids_has_matching_subcomponent`: scan the
tag list, and on the first recorded tree that is not `Atom(k)` itself
return `cont` of it (no fallback to later tags). -/
def expandLoop (T : IDSTable) (k : Char) (cont : IDS → Except MErr Bool) :
    List Tag → Except MErr Bool
  | [] => .ok false
  | tag :: rest =>
    match tableGet T (k, tag) with
    | some e => if e ≠ .Char k then cont e else expandLoop T k cont rest
    | none => expandLoop T k cont rest

/-- The tag loop in `ids_has_subcomponent`: every non-self expansion is
tried, returning `true` on the first recursion that succeeds. -/
def expandAll (T : IDSTable) (k : Char) (cont : IDS → Except MErr Bool) :
    List Tag → Except MErr Bool
  | [] => .ok false
  | tag :: rest =>
    match tableGet T (k, tag) with
    | some e =>
      if e ≠ .Char k then
        match cont e with
        | .ok true => .ok true
        | .ok false => expandAll T k cont rest
        | .error er => .error er
      else expandAll T k cont rest
    | none => expandAll T k cont rest

/-- `for (x, y) in xs.iter().zip(ys.iter()) { if !m(x,y) { return false } }`. -/
def allPairs (m : IDS → IDS → Except MErr Bool) : List (IDS × IDS) → Except MErr Bool
  | [] => .ok true
  | (x, y) :: rest =>
    match m x y with
    | .ok true => allPairs m rest
    | .ok false => .ok false
    | .error er => .error er

/-- `for x in xs { if m(x) { return true } }`. -/
def anyChild (m : IDS → Except MErr Bool) : List IDS → Except MErr Bool
  | [] => .ok false
  | x :: rest =>
    match m x with
    | .ok true => .ok true
    | .ok false => anyChild m rest
    | .error er => .error er

/-- The associative-regrouping branch of `ids_match`: the clones of
`xs[0]`, `xs[1]`, `xs[2]`, `ys[0]`, `ys[1]` (out-of-bounds indexing is a
panic) and the short-circuit `(m(ab,d) && m(c,e)) || (m(a,d) && m(bc,e))`
over `xc.reduce().unwrap()` (an unwrap of `None` is a panic). -/
def regroup (m : IDS → IDS → Except MErr Bool) (xc : IDC) (xs ys : List IDS) :
    Except MErr Bool :=
  match xs, ys with
  | x0 :: x1 :: x2 :: _, y0 :: y1 :: _ =>
    match xc.reduce with
    | some rc =>
      eOr (eAnd (m (.Composition rc [x0, x1]) y0) (m x2 y1))
          (eAnd (m x0 y0) (m (.Composition rc [x1, x2]) y1))
    | none => .error .panicked
  | _, _ => .error .panicked

/-- The body of one `ids_match` call, with `m` standing for the recursive
call (the Rust match arms in source order; the two wildcard guards come
first). -/
def matchStep (T : IDSTable) (m : IDS → IDS → Except MErr Bool) (a b : IDS)
    (wildcard_k : Char) : Except MErr Bool :=
  if isWild a wildcard_k then .ok true
  else if isWild b wildcard_k then .ok true
  else
    match a, b with
    | .Special s, .Special t => .ok (s == t)
    | .Char x, .Char y => .ok (x == y)
    | .Char k, .Composition _ _ =>
      (match tagsGet T k with
       | none => .ok false
       | some k_tags => expandLoop T k (fun e => m e b) k_tags)
    | .Composition _ _, .Char _ => m b a
    | .Composition xc xs, .Composition yc ys =>
      if xc = yc then
        allPairs m (xs.zip ys)
      else if xc.arity = 3 ∧ yc.arity = 2 ∧ xc.is_same_direction yc = true then
        regroup m xc xs ys
      else if xc.arity = 2 ∧ yc.arity = 3 then
        m b a
      else .ok false
    | _, _ => .ok false

/-- `IDSTable::ids_match` (`structurally_matches` in the spec). -/
def ids_matchF : Nat → IDSTable → IDS → IDS → Char → Except MErr Bool
  | 0, _, _, _, _ => .error .fuelOut
  | fuel + 1, T, a, b, wildcard_k =>
    matchStep T (fun x y => ids_matchF fuel T x y wildcard_k) a b wildcard_k

/-- The body of one `ids_has_matching_subcomponent` call: `mids` stands for
the embedded `ids_match` call, `m` for the recursive call. -/
def hmsStep (T : IDSTable) (mids m : IDS → IDS → Except MErr Bool) (a b : IDS)
    (wildcard_k : Char) : Except MErr Bool :=
  match mids a b with
  | .error e => .error e
  | .ok true => .ok true
  | .ok false =>
    if isWild a wildcard_k then .ok true
    else if isWild b wildcard_k then .ok true
    else
      match a, b with
      | .Special s, .Special t => .ok (s == t)
      | .Special _, _ => .ok false
      | .Char x, .Char y => .ok (x == y)
      | .Char _, .Special _ => .ok false
      | .Char k, .Composition _ _ =>
        (match tagsGet T k with
         | none => .ok false
         | some a_tags => expandLoop T k (fun e => m e b) a_tags)
      | .Composition _ xs, _ =>
        anyChild (fun x => m x b) xs

/-- `IDSTable::ids_has_matching_subcomponent` (`has_matching_descendant`). -/
def ids_has_matching_subcomponentF : Nat → IDSTable → IDS → IDS → Char → Except MErr Bool
  | 0, _, _, _, _ => .error .fuelOut
  | fuel + 1, T, a, b, wildcard_k =>
    hmsStep T (fun x y => ids_matchF fuel T x y wildcard_k)
      (fun x y => ids_has_matching_subcomponentF fuel T x y wildcard_k) a b wildcard_k

/-- The body of one `ids_has_subcomponent` call, `m` standing for the
recursive call. -/
def hsStep (T : IDSTable) (m : IDS → IDS → Except MErr Bool) (haystack needle : IDS) :
    Except MErr Bool :=
  if haystack = needle then .ok true
  else
    match haystack, needle with
    | .Special s, .Special t => .ok (s == t)
    | .Special _, _ => .ok false
    | .Char a, .Char b =>
      if a = b then .ok true
      else if (tagsGet T a).isNone then .ok false
      else
        (match tagsGet T a with
         | none => .ok false
         | some tags_ => expandAll T a (fun e => m e needle) tags_)
    | .Char a, _ =>
      (match tagsGet T a with
       | none => .ok false
       | some tags_ => expandAll T a (fun e => m e needle) tags_)
    | .Composition _ children, _ =>
      anyChild (fun c => m c needle) children

/-- `IDSTable::ids_has_subcomponent` (`contains_subtree`). -/
def ids_has_subcomponentF : Nat → IDSTable → IDS → IDS → Except MErr Bool
  | 0, _, _, _ => .error .fuelOut
  | fuel + 1, T, haystack, needle =>
    hsStep T (fun x y => ids_has_subcomponentF fuel T x y) haystack needle

/-! The search API (`src/lib.rs`).  Only `search_find` is needed by the
claims.  The value `.ok none` models the Rust `Err("Cannot parse needle …")`
path; `.error _` models divergence of the matching engine. -/

def WILDCARD_CHAR : Char := '.'

def parseNeedles : List String → Option (List IDS)
  | [] => some []
  | s :: rest =>
    match parse s with
    | none => none
    | some t =>
      match parseNeedles rest with
      | none => none
      | some ts => some (t :: ts)

/-- `needles.iter().all(|needle| table.ids_has_subcomponent(&ids, &needle))`. -/
def allNeedles (fuel : Nat) (T : IDSTable) : List IDS → IDS → Except MErr Bool
  | [], _ => .ok true
  | nd :: rest, t =>
    match ids_has_subcomponentF fuel T t nd with
    | .ok true => allNeedles fuel T rest t
    | .ok false => .ok false
    | .error er => .error er

/-- The `filter_map` over `table.iter()` in `search_find`. -/
def collectF (fuel : Nat) (T : IDSTable) (needles : List IDS) :
    List ((Char × Tag) × IDS) → Except MErr (List (Char × Tag))
  | [] => .ok []
  | (key, ids) :: rest =>
    match allNeedles fuel T needles ids with
    | .error er => .error er
    | .ok true =>
      (match collectF fuel T needles rest with
       | .ok l => .ok (key :: l)
       | .error er => .error er)
    | .ok false => collectF fuel T needles rest

/-- Lexicographic order on character lists by codepoint: the order Rust's
byte-lexicographic `Ord` on `String` induces on valid UTF-8. -/
def strLeL : List Char → List Char → Bool
  | [], _ => true
  | _ :: _, [] => false
  | a :: xs, b :: ys => if a = b then strLeL xs ys else decide (a.toNat < b.toNat)

/-- The derived `Ord` of the Rust `Tag` enum: `Variant` before `Anon`,
labels by lexicographic order, indices numerically. -/
def tagLe (a b : Tag) : Bool :=
  match a, b with
  | .Variant s, .Variant t => strLeL s.data t.data
  | .Variant _, .Anon _ => true
  | .Anon _, .Variant _ => false
  | .Anon i, .Anon j => decide (i ≤ j)

/-- The derived lexicographic `Ord` on `(char, Tag)` used by `result.sort()`. -/
def keyLe (a b : Char × Tag) : Bool :=
  if a.1 = b.1 then tagLe a.2 b.2 else decide (a.1.toNat ≤ b.1.toNat)

/-- Insert into a sorted list after every element that compares below-or-equal. -/
def insertSorted {α : Type} (le : α → α → Bool) (x : α) : List α → List α
  | [] => [x]
  | y :: ys => if le y x then y :: insertSorted le x ys else x :: y :: ys

/-- A stable sort (the semantics of Rust `slice::sort`). -/
def sortBy {α : Type} (le : α → α → Bool) : List α → List α
  | [] => []
  | x :: xs => insertSorted le x (sortBy le xs)

/-- `search_find` from `src/lib.rs`. -/
def search_findF (fuel : Nat) (T : IDSTable) (needle_strs : List String) :
    Except MErr (Option (List (Char × Tag))) :=
  match parseNeedles needle_strs with
  | none => .ok none
  | some needles =>
    match collectF fuel T needles T.table with
    | .ok result => .ok (some (sortBy keyLe result))
    | .error er => .error er

/-! Specification-side definitions and measures used to state and prove the
properties below (these do not embed source code). -/

/-- From the spec's words: the first tag in `k`'s list whose recorded tree is
not exactly `Atom(k)` — the scan underlying the expansion loops, as a
value. -/
def firstNonSelfAux (T : IDSTable) (k : Char) : List Tag → Option IDS
  | [] => none
  | tag :: rest =>
    match tableGet T (k, tag) with
    | some e => if e ≠ .Char k then some e else firstNonSelfAux T k rest
    | none => firstNonSelfAux T k rest

/-- From the spec's words: the first non-self-referential recorded expansion
of the atom `k`, if any. -/
def firstNonSelf (T : IDSTable) (k : Char) : Option IDS :=
  match tagsGet T k with
  | none => none
  | some tags_ => firstNonSelfAux T k tags_

/-- Largest rank of a character in the list (0 when empty). -/
def maxRank (r : Char → Nat) : List Char → Nat
  | [] => 0
  | c :: cs => max (r c) (maxRank r cs)

/-- Largest rank of an atom occurring in the tree. -/
def rankOf (r : Char → Nat) (t : IDS) : Nat := maxRank r (atomsOf t)

/-- `r` is a ranking witnessing that the table's atom expansions are
acyclic: every non-self recorded expansion of `k` has positive rank at `k`
and mentions only atoms of strictly smaller rank. -/
def rankedTable (T : IDSTable) (r : Char → Nat) : Bool :=
  T.tags.all fun p =>
    p.2.all fun tag =>
      match tableGet T (p.1, tag) with
      | some e =>
        decide (e = .Char p.1) ||
          (decide (0 < r p.1) && (atomsOf e).all fun j => decide (r j < r p.1))
      | none => true

/-- Every tree recorded in the table is well-formed. -/
def wfTable (T : IDSTable) : Bool := T.table.all fun e => WFb e.2

/-- The `(a,b)`-side of the lexicographic termination measure: the swap
cases of `ids_match` leave ranks and sizes unchanged and are counted by
this flag instead. -/
def swapFlag : IDS → IDS → Nat
  | .Composition _ _, .Char _ => 1
  | .Composition xc _, .Composition yc _ =>
    if xc ≠ yc ∧ ¬ (xc.arity = 3 ∧ yc.arity = 2 ∧ xc.is_same_direction yc = true) ∧
        xc.arity = 2 ∧ yc.arity = 3 then 1 else 0
  | _, _ => 0

/-- A cyclically-defined table (loadable from dictionary text: records
`0001 a b` and `0002 b a`). -/
def cycTable : IDSTable :=
  { table := [(('a', .Variant ""), .Char 'b'), (('b', .Variant ""), .Char 'a')],
    tags := [('a', [.Variant ""]), ('b', [.Variant ""])] }

/-- A table giving the atom `k` two tagged variants: tag `a` recorded as
atom `x`, tag `b` recorded as atom `y`. -/
def twoTagTable : IDSTable :=
  { table := [(('k', .Variant "a"), .Char 'x'), (('k', .Variant "b"), .Char 'y')],
    tags := [('k', [.Variant "a", .Variant "b"])] }

/-- A table recording an ill-formed tree (a ternary operator with one
child) for the atom `k`. -/
def illFormedTable : IDSTable :=
  { table := [(('k', .Variant ""), .Composition ⟨'⿲'⟩ [.Char 'p'])],
    tags := [('k', [.Variant ""])] }

/-- The table loaded from the single record `0001 从 ⿰人人`. -/
def sampleTable : IDSTable :=
  { table := [(('从', .Variant ""), .Composition ⟨'⿰'⟩ [.Char '人', .Char '人'])],
    tags := [('从', [.Variant ""])] }

/-- A ranking for `sampleTable`. -/
def sampleRank (c : Char) : Nat := if c = '从' then 1 else 0

/-- The loader's running invariant: every tag in a character's list is a
key of the table, every table key's character has a tag list, and no
`Variant` label repeats in one list. -/
def TableInv (st : IDSTable) : Prop :=
  (∀ c tag l, tagsGet st c = some l → tag ∈ l → (tableGet st (c, tag)).isSome = true) ∧
  (∀ c tag, (tableGet st (c, tag)).isSome = true → ∃ l, tagsGet st c = some l) ∧
  (∀ c l s, tagsGet st c = some l → l.count (Tag.Variant s) ≤ 1)

theorem parser_special_sound {l : List Char} {t : IDS} {r : List Char}
    (h : parser_special l = some (t, r)) : l = renderL t ++ r := by
  rw [parser_special.eq_def] at h
  split at h
  · rename_i rest
    split at h
    · exact absurd h (by simp)
    · split at h
      · rename_i rest2 hdrop
        simp only [Option.some.injEq, Prod.mk.injEq] at h
        obtain ⟨ht, hr⟩ := h
        subst ht; subst hr
        have hrest : rest =
            List.takeWhile (fun c => decide (c ≠ '}')) rest ++
              List.dropWhile (fun c => decide (c ≠ '}')) rest :=
          (List.takeWhile_append_dropWhile _ _).symm
        rw [hdrop] at hrest
        conv_lhs => rw [hrest]
        simp [renderL]
      · exact absurd h (by simp)
  · exact absurd h (by simp)

theorem parser_char_sound {l : List Char} {t : IDS} {r : List Char}
    (h : parser_char l = some (t, r)) : l = renderL t ++ r := by
  rw [parser_char.eq_def] at h
  split at h
  · split at h
    · simp only [Option.some.injEq, Prod.mk.injEq] at h
      obtain ⟨ht, hr⟩ := h
      subst ht; subst hr
      simp [renderL]
    · exact absurd h (by simp)
  · exact absurd h (by simp)

theorem parser_many_sound {p : List Char → Option (IDS × List Char)}
    (hp : ∀ {l t r}, p l = some (t, r) → l = renderL t ++ r) :
    ∀ {n : Nat} {l : List Char} {ts : List IDS} {r : List Char},
      parser_many p n l = some (ts, r) → l = renderM ts ++ r := by
  intro n
  induction n with
  | zero =>
    intro l ts r h
    simp only [parser_many, Option.some.injEq, Prod.mk.injEq] at h
    obtain ⟨hts, hr⟩ := h
    subst hts; subst hr
    simp [renderM]
  | succ n ih =>
    intro l ts r h
    simp only [parser_many] at h
    split at h
    · rename_i t2 rest hpl
      split at h
      · rename_i ts2 rest2 hmany
        simp only [Option.some.injEq, Prod.mk.injEq] at h
        obtain ⟨hts, hr⟩ := h
        subst hts; subst hr
        have h1 := hp hpl
        have h2 := ih hmany
        simp [renderM, h1, h2]
      · exact absurd h (by simp)
    · exact absurd h (by simp)

theorem parser_composition_sound {p : List Char → Option (IDS × List Char)}
    (hp : ∀ {l t r}, p l = some (t, r) → l = renderL t ++ r)
    {l : List Char} {t : IDS} {r : List Char}
    (h : parser_composition p l = some (t, r)) : l = renderL t ++ r := by
  rw [parser_composition.eq_def] at h
  split at h
  · rename_i c rest
    split at h
    · split at h
      · rename_i children rest2 hmany
        simp only [Option.some.injEq, Prod.mk.injEq] at h
        obtain ⟨ht, hr⟩ := h
        subst ht; subst hr
        have h2 := parser_many_sound hp hmany
        simp [renderL, h2]
      · exact absurd h (by simp)
    · exact absurd h (by simp)
  · exact absurd h (by simp)

theorem parser_ids_sound :
    ∀ {fuel : Nat} {l : List Char} {t : IDS} {r : List Char},
      parser_ids fuel l = some (t, r) → l = renderL t ++ r := by
  intro fuel
  induction fuel with
  | zero => intro l t r h; exact absurd h (by simp [parser_ids])
  | succ fuel ih =>
    intro l t r h
    simp only [parser_ids] at h
    split at h
    · rename_i res hcomp
      cases h
      exact parser_composition_sound (fun {l t r} h => ih h) hcomp
    · rename_i hcompnone
      split at h
      · rename_i res hspec
        cases h
        exact parser_special_sound hspec
      · exact parser_char_sound h

theorem parser_composition_none_of_head {p : List Char → Option (IDS × List Char)}
    {c : Char} {rest : List Char} (hc : is_idc c = false) :
    parser_composition p (c :: rest) = none := by
  simp [parser_composition, hc]

theorem parser_special_head {l : List Char} {res : IDS × List Char}
    (h : parser_special l = some res) : ∃ rest, l = '{' :: rest := by
  rw [parser_special.eq_def] at h
  split at h
  · rename_i rest; exact ⟨rest, rfl⟩
  · exact absurd h (by simp)

theorem parser_char_head {l : List Char} {res : IDS × List Char}
    (h : parser_char l = some res) : ∃ c rest, l = c :: rest ∧ is_idc c = false := by
  rw [parser_char.eq_def] at h
  split at h
  · rename_i c rest
    split at h
    · rename_i hcond
      exact ⟨c, rest, rfl, by simpa using hcond.1⟩
    · exact absurd h (by simp)
  · exact absurd h (by simp)

theorem parser_many_mono {p q : List Char → Option (IDS × List Char)}
    (hpq : ∀ {l res}, p l = some res → q l = some res) :
    ∀ {n : Nat} {l : List Char} {res : List IDS × List Char},
      parser_many p n l = some res → parser_many q n l = some res := by
  intro n
  induction n with
  | zero => intro l res h; simpa [parser_many] using h
  | succ n ih =>
    intro l res h
    rw [parser_many] at h
    rw [parser_many]
    split at h
    · rename_i t rest hpl
      rw [hpq hpl]
      split at h
      · rename_i ts rest2 hmany
        show (match parser_many q n rest with
              | some (ts, rest2) => some (t :: ts, rest2)
              | none => none) = some res
        rw [ih hmany]
        exact h
      · exact absurd h (by simp)
    · exact absurd h (by simp)

theorem parser_composition_mono {p q : List Char → Option (IDS × List Char)}
    (hpq : ∀ {l res}, p l = some res → q l = some res)
    {l : List Char} {res : IDS × List Char}
    (h : parser_composition p l = some res) : parser_composition q l = some res := by
  rw [parser_composition.eq_def] at h
  split at h
  · rename_i c rest
    split at h
    · rename_i hidc
      split at h
      · rename_i children rest2 hmany
        rw [parser_composition]
        rw [if_pos hidc]
        rw [parser_many_mono hpq hmany]
        exact h
      · exact absurd h (by simp)
    · exact absurd h (by simp)
  · exact absurd h (by simp)

theorem parser_ids_mono :
    ∀ {fuel : Nat} {l : List Char} {res : IDS × List Char},
      parser_ids fuel l = some res → parser_ids (fuel + 1) l = some res := by
  intro fuel
  induction fuel with
  | zero => intro l res h; exact absurd h (by simp [parser_ids])
  | succ fuel ih =>
    intro l res h
    rw [parser_ids] at h
    rw [parser_ids]
    split at h
    · rename_i r hcomp
      rw [parser_composition_mono (fun {l res} hh => ih hh) hcomp]
      exact h
    · rename_i hcompnone
      split at h
      · rename_i r hspec
        obtain ⟨rest, hl⟩ := parser_special_head hspec
        subst hl
        rw [parser_composition_none_of_head (by decide)]
        exact h
      · rename_i hspecnone
        obtain ⟨c, rest, hl, hc⟩ := parser_char_head h
        subst hl
        rw [parser_composition_none_of_head hc]
        exact h

theorem parser_ids_mono_le {fuel fuel2 : Nat} (hle : fuel ≤ fuel2) :
    ∀ {l : List Char} {res : IDS × List Char},
      parser_ids fuel l = some res → parser_ids fuel2 l = some res := by
  induction fuel2, hle using Nat.le_induction with
  | base => intro l res h; exact h
  | succ n hn ih => intro l res h; exact parser_ids_mono (ih h)

theorem dropWhile_cons_ext {p : Char → Bool} :
    ∀ {l : List Char} {x : Char} {xs E : List Char},
      l.dropWhile p = x :: xs →
      (l ++ E).takeWhile p = l.takeWhile p ∧ (l ++ E).dropWhile p = x :: (xs ++ E) := by
  intro l
  induction l with
  | nil => intro x xs E h; simp [List.dropWhile] at h
  | cons a rest ih =>
    intro x xs E h
    by_cases hp : p a
    · rw [List.dropWhile_cons_of_pos hp] at h
      obtain ⟨h1, h2⟩ := ih (E := E) h
      refine ⟨?_, ?_⟩
      · simp only [List.cons_append, List.takeWhile_cons_of_pos hp, h1]
      · simp only [List.cons_append, List.dropWhile_cons_of_pos hp, h2]
    · rw [List.dropWhile_cons_of_neg hp] at h
      cases h
      refine ⟨?_, ?_⟩
      · simp only [List.cons_append, List.takeWhile_cons_of_neg hp]
      · simp only [List.cons_append, List.dropWhile_cons_of_neg hp]

theorem parser_special_none_of_head {c : Char} {rest : List Char} (hc : c ≠ '{') :
    parser_special (c :: rest) = none := by
  rw [parser_special.eq_def]
  split
  · rename_i rest2 heq
    injection heq with h1 h2
    exact absurd h1 hc
  · rfl

theorem parser_special_ext {l : List Char} {t : IDS} {r E : List Char}
    (h : parser_special l = some (t, r)) : parser_special (l ++ E) = some (t, r ++ E) := by
  rw [parser_special.eq_def] at h
  split at h
  · rename_i rest
    split at h
    · exact absurd h (by simp)
    · rename_i hne
      split at h
      · rename_i rest2 hdrop
        simp only [Option.some.injEq, Prod.mk.injEq] at h
        obtain ⟨ht, hr⟩ := h
        subst ht; subst hr
        obtain ⟨htake, hdrop2⟩ := dropWhile_cons_ext (p := fun c => decide (c ≠ '}')) (E := E) hdrop
        show (match List.takeWhile (fun c => decide (c ≠ '}')) (rest ++ E) with
              | [] => none
              | taken =>
                match List.dropWhile (fun c => decide (c ≠ '}')) (rest ++ E) with
                | '}' :: rest2 => some (IDS.Special ⟨taken⟩, rest2)
                | _ => none) =
          some (IDS.Special ⟨List.takeWhile (fun c => decide (c ≠ '}')) rest⟩, rest2 ++ E)
        rw [htake, hdrop2]
        rcases htk : List.takeWhile (fun c => decide (c ≠ '}')) rest with _ | ⟨a, as⟩
        · exact absurd htk hne
        · rfl
      · exact absurd h (by simp)
  · exact absurd h (by simp)

theorem parser_char_ext {l : List Char} {t : IDS} {r E : List Char}
    (h : parser_char l = some (t, r)) : parser_char (l ++ E) = some (t, r ++ E) := by
  rw [parser_char.eq_def] at h
  split at h
  · rename_i c rest
    split at h
    · rename_i hcond
      simp only [Option.some.injEq, Prod.mk.injEq] at h
      obtain ⟨ht, hr⟩ := h
      subst ht; subst hr
      show parser_char (c :: (rest ++ E)) = _
      simp [parser_char, hcond]
    · exact absurd h (by simp)
  · exact absurd h (by simp)

theorem parser_many_ext {p : List Char → Option (IDS × List Char)}
    (hp : ∀ {l t r E}, p l = some (t, r) → p (l ++ E) = some (t, r ++ E)) :
    ∀ {n : Nat} {l : List Char} {ts : List IDS} {r E : List Char},
      parser_many p n l = some (ts, r) → parser_many p n (l ++ E) = some (ts, r ++ E) := by
  intro n
  induction n with
  | zero =>
    intro l ts r E h
    simp only [parser_many, Option.some.injEq, Prod.mk.injEq] at h
    obtain ⟨hts, hr⟩ := h
    subst hts; subst hr
    simp [parser_many]
  | succ n ih =>
    intro l ts r E h
    rw [parser_many] at h
    rw [parser_many]
    split at h
    · rename_i t2 rest hpl
      rw [hp (E := E) hpl]
      split at h
      · rename_i ts2 rest2 hmany
        show (match parser_many p n (rest ++ E) with
              | some (ts, rest2) => some (t2 :: ts, rest2)
              | none => none) = some (ts, r ++ E)
        rw [ih (E := E) hmany]
        simp only [Option.some.injEq, Prod.mk.injEq] at h
        obtain ⟨hts, hr⟩ := h
        subst hts; subst hr
        rfl
      · exact absurd h (by simp)
    · exact absurd h (by simp)

theorem parser_char_inv {l : List Char} {t : IDS} {r : List Char}
    (h : parser_char l = some (t, r)) :
    ∃ c, l = c :: r ∧ is_idc c = false ∧ c ≠ '{' ∧ c ≠ '[' ∧ t = .Char c := by
  rw [parser_char.eq_def] at h
  split at h
  · rename_i c rest
    split at h
    · rename_i hcond
      simp only [Option.some.injEq, Prod.mk.injEq] at h
      obtain ⟨ht, hr⟩ := h
      subst ht; subst hr
      exact ⟨c, rfl, by simpa using hcond.1, hcond.2.1, hcond.2.2, rfl⟩
    · exact absurd h (by simp)
  · exact absurd h (by simp)

theorem parser_composition_ext {p : List Char → Option (IDS × List Char)}
    (hp : ∀ {l t r E}, p l = some (t, r) → p (l ++ E) = some (t, r ++ E))
    {l : List Char} {t : IDS} {r E : List Char}
    (h : parser_composition p l = some (t, r)) :
    parser_composition p (l ++ E) = some (t, r ++ E) := by
  rw [parser_composition.eq_def] at h
  split at h
  · rename_i c rest
    split at h
    · rename_i hidc
      split at h
      · rename_i children rest2 hmany
        simp only [Option.some.injEq, Prod.mk.injEq] at h
        obtain ⟨ht, hr⟩ := h
        subst ht; subst hr
        show (if is_idc c then
                match parser_many p (idc_arity c) (rest ++ E) with
                | some (children, rest2) => some (IDS.Composition ⟨c⟩ children, rest2)
                | none => none
              else none) = some (IDS.Composition ⟨c⟩ children, rest2 ++ E)
        rw [if_pos hidc, parser_many_ext hp (E := E) hmany]
      · exact absurd h (by simp)
    · exact absurd h (by simp)
  · exact absurd h (by simp)

theorem parser_ids_ext :
    ∀ {fuel : Nat} {l : List Char} {t : IDS} {r E : List Char},
      parser_ids fuel l = some (t, r) → parser_ids fuel (l ++ E) = some (t, r ++ E) := by
  intro fuel
  induction fuel with
  | zero => intro l t r E h; exact absurd h (by simp [parser_ids])
  | succ fuel ih =>
    intro l t r E h
    rw [parser_ids] at h
    rw [parser_ids]
    split at h
    · rename_i res hcomp
      obtain ⟨t2, r2⟩ := res
      injection h with h2
      injection h2 with h3 h4
      subst h3; subst h4
      rw [parser_composition_ext (fun {l t r E} hh => ih hh) hcomp]
    · rename_i hcompnone
      split at h
      · rename_i res hspec
        obtain ⟨t2, r2⟩ := res
        injection h with h2
        injection h2 with h3 h4
        subst h3; subst h4
        obtain ⟨rest, hl⟩ := parser_special_head hspec
        subst hl
        have hext := parser_special_ext (E := E) hspec
        rw [List.cons_append] at hext
        show (match parser_composition (parser_ids fuel) ('{' :: (rest ++ E)) with
              | some r => some r
              | none =>
                match parser_special ('{' :: (rest ++ E)) with
                | some r => some r
                | none => parser_char ('{' :: (rest ++ E))) = some (t2, r2 ++ E)
        rw [parser_composition_none_of_head (by decide), hext]
      · rename_i hspecnone
        obtain ⟨c, hl, hidc, hbrace, hbracket, ht⟩ := parser_char_inv h
        subst hl; subst ht
        show (match parser_composition (parser_ids fuel) (c :: (r ++ E)) with
              | some r => some r
              | none =>
                match parser_special (c :: (r ++ E)) with
                | some r => some r
                | none => parser_char (c :: (r ++ E))) = some (IDS.Char c, r ++ E)
        rw [parser_composition_none_of_head hidc]
        rw [parser_special_none_of_head hbrace]
        show parser_char (c :: (r ++ E)) = some (IDS.Char c, r ++ E)
        simp [parser_char, hidc, hbrace, hbracket]

theorem parse_inv {s : String} {t : IDS} (h : parse s = some t) :
    parser_ids (s.length + 1) s.data = some (t, []) := by
  simp only [parse] at h
  split at h
  · rename_i ids heq
    injection h with h2
    subst h2
    exact heq
  · exact absurd h (by simp)
  · exact absurd h (by simp)

theorem parse_render {s : String} {t : IDS} (h : parse s = some t) :
    s.data = renderL t := by
  have h1 := parse_inv h
  have h2 := parser_ids_sound h1
  simpa using h2

/-- The round trip for the raw character list: rendering the parsed tree
gives back exactly the consumed input. -/
theorem round_trip_core {s : String} {t : IDS} (h : parse s = some t) :
    parse (render t) = some t := by
  have h1 := parse_inv h
  have h2 := parse_render h
  have hdata : (render t).data = renderL t := rfl
  have hlen : (render t).length = s.length := by
    show (render t).data.length = s.data.length
    rw [hdata, h2]
  have hd2 : (render t).data = s.data := by rw [hdata, h2]
  rw [parse.eq_def, hlen, hd2, h1]

theorem parser_tag_lbrack_rbrack : parser_tag ['[', ']'] = none := by decide

theorem parse_tagged_trailing_empty {s : String} {t : IDS} (h : parse s = some t) :
    parse_tagged (s ++ "[]") = none := by
  have h1 := parse_inv h
  have h2 : parser_ids (s.length + 1) (s.data ++ ['[', ']']) = some (t, ['[', ']']) := by
    have := parser_ids_ext (E := ['[', ']']) h1
    simpa using this
  have h3 : parser_ids (s.length + 2 + 1) (s.data ++ ['[', ']']) = some (t, ['[', ']']) :=
    parser_ids_mono_le (by omega) h2
  have hdata : (s ++ "[]").data = s.data ++ ['[', ']'] := by
    rw [String.data_append]
  have hlen : (s ++ "[]").length = s.length + 2 := by
    show (s ++ "[]").data.length = s.length + 2
    rw [hdata, List.length_append]
    rfl
  simp only [parse_tagged, parser_tagged_ids, hlen, hdata, h3,
    parser_tag_lbrack_rbrack]
  rw [if_neg (by decide)]

theorem expandLoop_mono {T : IDSTable} {k : Char} {cont cont2 : IDS → Except MErr Bool}
    (h : ∀ e r, cont e = .ok r → cont2 e = .ok r) :
    ∀ {tags_ : List Tag} {r : Bool},
      expandLoop T k cont tags_ = .ok r → expandLoop T k cont2 tags_ = .ok r := by
  intro tags_
  induction tags_ with
  | nil => intro r hr; simpa [expandLoop] using hr
  | cons tag rest ih =>
    intro r hr
    rw [expandLoop] at hr
    rw [expandLoop]
    split at hr
    · rename_i e hget
      by_cases hne : e ≠ IDS.Char k
      · rw [if_pos hne] at hr ⊢
        exact h e r hr
      · rw [if_neg hne] at hr ⊢
        exact ih hr
    · rename_i hget
      exact ih hr

theorem expandAll_mono {T : IDSTable} {k : Char} {cont cont2 : IDS → Except MErr Bool}
    (h : ∀ e r, cont e = .ok r → cont2 e = .ok r) :
    ∀ {tags_ : List Tag} {r : Bool},
      expandAll T k cont tags_ = .ok r → expandAll T k cont2 tags_ = .ok r := by
  intro tags_
  induction tags_ with
  | nil => intro r hr; simpa [expandAll] using hr
  | cons tag rest ih =>
    intro r hr
    rw [expandAll] at hr
    rw [expandAll]
    split at hr
    · rename_i e hget
      by_cases hne : e ≠ IDS.Char k
      · rw [if_pos hne] at hr ⊢
        split at hr
        · rename_i hce
          rw [h e true hce]
          exact hr
        · rename_i hce
          rw [h e false hce]
          exact ih hr
        · exact absurd hr (by simp)
      · rw [if_neg hne] at hr ⊢
        exact ih hr
    · rename_i hget
      exact ih hr

theorem allPairs_mono {m m2 : IDS → IDS → Except MErr Bool}
    (h : ∀ x y r, m x y = .ok r → m2 x y = .ok r) :
    ∀ {l : List (IDS × IDS)} {r : Bool}, allPairs m l = .ok r → allPairs m2 l = .ok r := by
  intro l
  induction l with
  | nil => intro r hr; simpa [allPairs] using hr
  | cons p rest ih =>
    intro r hr
    obtain ⟨x, y⟩ := p
    rw [allPairs] at hr
    rw [allPairs]
    split at hr
    · rename_i hm
      rw [h x y true hm]
      exact ih hr
    · rename_i hm
      rw [h x y false hm]
      exact hr
    · exact absurd hr (by simp)

theorem anyChild_mono {m m2 : IDS → Except MErr Bool}
    (h : ∀ x r, m x = .ok r → m2 x = .ok r) :
    ∀ {l : List IDS} {r : Bool}, anyChild m l = .ok r → anyChild m2 l = .ok r := by
  intro l
  induction l with
  | nil => intro r hr; simpa [anyChild] using hr
  | cons x rest ih =>
    intro r hr
    rw [anyChild] at hr
    rw [anyChild]
    split at hr
    · rename_i hm
      rw [h x true hm]
      exact hr
    · rename_i hm
      rw [h x false hm]
      exact ih hr
    · exact absurd hr (by simp)

theorem eAnd_mono {x y x2 y2 : Except MErr Bool}
    (hx : ∀ r, x = .ok r → x2 = .ok r) (hy : ∀ r, y = .ok r → y2 = .ok r) :
    ∀ {r : Bool}, eAnd x y = .ok r → eAnd x2 y2 = .ok r := by
  intro r h
  cases x with
  | ok bx =>
    cases bx with
    | true =>
      rw [hx true rfl]
      simp only [eAnd] at h
      exact hy r h
    | false =>
      rw [hx false rfl]
      simpa [eAnd] using h
  | error e => exact absurd h (by simp [eAnd])

theorem eOr_mono {x y x2 y2 : Except MErr Bool}
    (hx : ∀ r, x = .ok r → x2 = .ok r) (hy : ∀ r, y = .ok r → y2 = .ok r) :
    ∀ {r : Bool}, eOr x y = .ok r → eOr x2 y2 = .ok r := by
  intro r h
  cases x with
  | ok bx =>
    cases bx with
    | true =>
      rw [hx true rfl]
      simpa [eOr] using h
    | false =>
      rw [hx false rfl]
      simp only [eOr] at h
      exact hy r h
  | error e => exact absurd h (by simp [eOr])

theorem regroup_mono {m m2 : IDS → IDS → Except MErr Bool}
    (h : ∀ x y r, m x y = .ok r → m2 x y = .ok r) {xc : IDC} {xs ys : List IDS} {r : Bool}
    (hr : regroup m xc xs ys = .ok r) : regroup m2 xc xs ys = .ok r := by
  rw [regroup.eq_def] at hr
  rw [regroup.eq_def]
  split at hr
  · rename_i x0 x1 x2 xs2 y0 y1 ys2
    split at hr
    · rename_i rc hred
      exact eOr_mono
        (fun r2 hm => eAnd_mono (fun r3 hm2 => h _ _ r3 hm2) (fun r3 hm2 => h _ _ r3 hm2) hm)
        (fun r2 hm => eAnd_mono (fun r3 hm2 => h _ _ r3 hm2) (fun r3 hm2 => h _ _ r3 hm2) hm)
        hr
    · exact absurd hr (by simp)
  · exact absurd hr (by simp)

theorem matchStep_mono {T : IDSTable} {m m2 : IDS → IDS → Except MErr Bool}
    (hm : ∀ x y r, m x y = .ok r → m2 x y = .ok r) :
    ∀ {a b : IDS} {w : Char} {r : Bool},
      matchStep T m a b w = .ok r → matchStep T m2 a b w = .ok r := by
  intro a b w r h
  rw [matchStep.eq_def] at h
  rw [matchStep.eq_def]
  by_cases hwa : isWild a w
  · rw [if_pos hwa] at h ⊢; exact h
  · rw [if_neg hwa] at h ⊢
    by_cases hwb : isWild b w
    · rw [if_pos hwb] at h ⊢; exact h
    · rw [if_neg hwb] at h ⊢
      split at h
      · exact h
      · exact h
      · split at h
        · exact h
        · exact expandLoop_mono (fun e r2 he => hm _ _ r2 he) h
      · exact hm _ _ r h
      · rename_i xc xs yc ys
        by_cases hxy : xc = yc
        · rw [if_pos hxy] at h ⊢
          exact allPairs_mono (fun x y r2 hp => hm _ _ r2 hp) h
        · rw [if_neg hxy] at h ⊢
          by_cases hreg : xc.arity = 3 ∧ yc.arity = 2 ∧ xc.is_same_direction yc = true
          · rw [if_pos hreg] at h ⊢
            exact regroup_mono (fun x y r2 hp => hm _ _ r2 hp) h
          · rw [if_neg hreg] at h ⊢
            by_cases harr : xc.arity = 2 ∧ yc.arity = 3
            · rw [if_pos harr] at h ⊢
              exact hm _ _ r h
            · rw [if_neg harr] at h ⊢
              exact h
      · rcases a with x | s | ⟨xc, xs⟩ <;> rcases b with y | t | ⟨yc, ys⟩ <;> exact h

theorem ids_matchF_mono :
    ∀ {f : Nat} {T : IDSTable} {a b : IDS} {w : Char} {r : Bool},
      ids_matchF f T a b w = .ok r → ids_matchF (f + 1) T a b w = .ok r := by
  intro f
  induction f with
  | zero => intro T a b w r h; exact absurd h (by simp [ids_matchF])
  | succ f ih =>
    intro T a b w r h
    rw [ids_matchF] at h
    rw [ids_matchF]
    exact matchStep_mono (fun x y r2 hm => ih hm) h

theorem ids_matchF_mono_le {f f2 : Nat} (hle : f ≤ f2) :
    ∀ {T : IDSTable} {a b : IDS} {w : Char} {r : Bool},
      ids_matchF f T a b w = .ok r → ids_matchF f2 T a b w = .ok r := by
  induction f2, hle using Nat.le_induction with
  | base => intro T a b w r h; exact h
  | succ n hn ih2 => intro T a b w r h; exact ids_matchF_mono (ih2 h)

theorem hmsStep_mono {T : IDSTable} {mids mids2 m m2 : IDS → IDS → Except MErr Bool}
    (hmi : ∀ x y r, mids x y = .ok r → mids2 x y = .ok r)
    (hm : ∀ x y r, m x y = .ok r → m2 x y = .ok r) :
    ∀ {a b : IDS} {w : Char} {r : Bool},
      hmsStep T mids m a b w = .ok r → hmsStep T mids2 m2 a b w = .ok r := by
  intro a b w r h
  rw [hmsStep.eq_def] at h
  rw [hmsStep.eq_def]
  split at h
  · exact absurd h (by simp)
  · rename_i hids
    rw [hmi _ _ true hids]
    exact h
  · rename_i hids
    rw [hmi _ _ false hids]
    by_cases hwa : isWild a w
    · rw [if_pos hwa] at h ⊢; exact h
    · rw [if_neg hwa] at h ⊢
      by_cases hwb : isWild b w
      · rw [if_pos hwb] at h ⊢; exact h
      · rw [if_neg hwb] at h ⊢
        split at h
        · exact h
        · exact h
        · exact h
        · exact h
        · split at h
          · exact h
          · exact expandLoop_mono (fun e r2 he => hm _ _ r2 he) h
        · exact anyChild_mono (fun x r2 hx => hm _ _ r2 hx) h

theorem ids_has_matching_subcomponentF_mono :
    ∀ {f : Nat} {T : IDSTable} {a b : IDS} {w : Char} {r : Bool},
      ids_has_matching_subcomponentF f T a b w = .ok r →
        ids_has_matching_subcomponentF (f + 1) T a b w = .ok r := by
  intro f
  induction f with
  | zero => intro T a b w r h; exact absurd h (by simp [ids_has_matching_subcomponentF])
  | succ f ih =>
    intro T a b w r h
    rw [ids_has_matching_subcomponentF] at h
    rw [ids_has_matching_subcomponentF]
    exact hmsStep_mono (fun x y r2 hp => ids_matchF_mono hp) (fun x y r2 hp => ih hp) h

theorem ids_has_matching_subcomponentF_mono_le {f f2 : Nat} (hle : f ≤ f2) :
    ∀ {T : IDSTable} {a b : IDS} {w : Char} {r : Bool},
      ids_has_matching_subcomponentF f T a b w = .ok r →
        ids_has_matching_subcomponentF f2 T a b w = .ok r := by
  induction f2, hle using Nat.le_induction with
  | base => intro T a b w r h; exact h
  | succ n hn ih2 => intro T a b w r h; exact ids_has_matching_subcomponentF_mono (ih2 h)

theorem hsStep_mono {T : IDSTable} {m m2 : IDS → IDS → Except MErr Bool}
    (hm : ∀ x y r, m x y = .ok r → m2 x y = .ok r) :
    ∀ {a b : IDS} {r : Bool}, hsStep T m a b = .ok r → hsStep T m2 a b = .ok r := by
  intro a b r h
  rw [hsStep.eq_def] at h
  rw [hsStep.eq_def]
  by_cases heq : a = b
  · rw [if_pos heq] at h ⊢; exact h
  · rw [if_neg heq] at h ⊢
    split at h
    · exact h
    · exact h
    · rename_i x y
      by_cases hxy : x = y
      · rw [if_pos hxy] at h ⊢; exact h
      · rw [if_neg hxy] at h ⊢
        by_cases htg : (tagsGet T x).isNone
        · rw [if_pos htg] at h ⊢; exact h
        · rw [if_neg htg] at h ⊢
          split at h
          · exact h
          · exact expandAll_mono (fun e r2 he => hm _ _ r2 he) h
    · split at h
      · exact h
      · exact expandAll_mono (fun e r2 he => hm _ _ r2 he) h
    · exact anyChild_mono (fun x r2 hx => hm _ _ r2 hx) h

theorem ids_has_subcomponentF_mono :
    ∀ {f : Nat} {T : IDSTable} {a b : IDS} {r : Bool},
      ids_has_subcomponentF f T a b = .ok r → ids_has_subcomponentF (f + 1) T a b = .ok r := by
  intro f
  induction f with
  | zero => intro T a b r h; exact absurd h (by simp [ids_has_subcomponentF])
  | succ f ih =>
    intro T a b r h
    rw [ids_has_subcomponentF] at h
    rw [ids_has_subcomponentF]
    exact hsStep_mono (fun x y r2 hp => ih hp) h

theorem ids_has_subcomponentF_mono_le {f f2 : Nat} (hle : f ≤ f2) :
    ∀ {T : IDSTable} {a b : IDS} {r : Bool},
      ids_has_subcomponentF f T a b = .ok r → ids_has_subcomponentF f2 T a b = .ok r := by
  induction f2, hle using Nat.le_induction with
  | base => intro T a b r h; exact h
  | succ n hn ih2 => intro T a b r h; exact ids_has_subcomponentF_mono (ih2 h)

/-- The first-non-self scan of `expandLoop` computed as a value: the loop
returns the continuation of the first non-self-referential expansion, with
no fallback, and `false` when there is none. -/
theorem expandLoop_eq_firstNonSelf {T : IDSTable} {k : Char} {cont : IDS → Except MErr Bool} :
    ∀ {tags_ : List Tag},
      expandLoop T k cont tags_ =
        match firstNonSelfAux T k tags_ with
        | some e => cont e
        | none => .ok false := by
  intro tags_
  induction tags_ with
  | nil => rw [expandLoop, firstNonSelfAux]
  | cons tag rest ih =>
    rw [expandLoop, firstNonSelfAux]
    split
    · rename_i e hget
      by_cases hne : e ≠ IDS.Char k
      · rw [if_pos hne, if_pos hne]
      · rw [if_neg hne, if_neg hne]
        exact ih
    · exact ih

/-- On the cyclic table, matching the atom `a` (or `b`) against any
composition runs out of any amount of fuel: the expansion loop alternates
between the two atoms forever. -/
theorem cycTable_diverges :
    ∀ (f : Nat) (yc : IDC) (ys : List IDS),
      ids_matchF f cycTable (.Char 'a') (.Composition yc ys) '.' = .error .fuelOut ∧
      ids_matchF f cycTable (.Char 'b') (.Composition yc ys) '.' = .error .fuelOut := by
  intro f
  induction f with
  | zero => intro yc ys; exact ⟨rfl, rfl⟩
  | succ f ih => intro yc ys; exact ⟨(ih yc ys).2, (ih yc ys).1⟩

theorem lookupA_mem {α β : Type} [DecidableEq α] :
    ∀ {l : List (α × β)} {key : α} {v : β}, lookupA l key = some v → (key, v) ∈ l := by
  intro l
  induction l with
  | nil => intro key v h; simp [lookupA] at h
  | cons p rest ih =>
    intro key v h
    obtain ⟨k2, v2⟩ := p
    rw [lookupA] at h
    split at h
    · rename_i hk
      injection h with hv
      subst hk; subst hv
      exact List.mem_cons_self _ _
    · exact List.mem_cons_of_mem _ (ih h)

theorem WFlist_mem : ∀ {ts : List IDS} {t : IDS}, WFlist ts = true → t ∈ ts → WFb t = true := by
  intro ts
  induction ts with
  | nil => intro t _ hm; simp at hm
  | cons x rest ih =>
    intro t hw hm
    rw [WFlist] at hw
    simp only [Bool.and_eq_true] at hw
    rcases List.mem_cons.mp hm with h | h
    · subst h; exact hw.1
    · exact ih hw.2 h

theorem WFb_comp {idc : IDC} {cs : List IDS} (h : WFb (.Composition idc cs) = true) :
    cs.length = idc.arity ∧ WFlist cs = true := by
  rw [WFb] at h
  simp only [Bool.and_eq_true, decide_eq_true_eq] at h
  exact h

theorem tableGet_WF {T : IDSTable} {key : Char × Tag} {e : IDS}
    (hT : wfTable T = true) (h : tableGet T key = some e) : WFb e = true := by
  have hm := lookupA_mem h
  rw [wfTable] at hT
  exact List.all_eq_true.mp hT _ hm

theorem arity_three_reduce {xc : IDC} (h : xc.arity = 3) :
    ∃ rc, xc.reduce = some rc ∧ rc.arity = 2 := by
  rw [IDC.arity, idc_arity] at h
  split_ifs at h with h1 h2
  · omega
  · rcases h2 with h2 | h2
    · exact ⟨⟨'⿰'⟩, by rw [IDC.reduce, if_pos h2], by decide⟩
    · refine ⟨⟨'⿱'⟩, ?_, by decide⟩
      rw [IDC.reduce, if_neg (by rw [h2]; decide), if_pos h2]
  · omega

theorem expandLoop_no_panic {T : IDSTable} {k : Char} {cont : IDS → Except MErr Bool}
    (hc : ∀ tag e, tableGet T (k, tag) = some e → cont e ≠ .error .panicked) :
    ∀ {tags_ : List Tag}, expandLoop T k cont tags_ ≠ .error .panicked := by
  intro tags_
  induction tags_ with
  | nil => rw [expandLoop]; simp
  | cons tag rest ih =>
    rw [expandLoop]
    split
    · rename_i e hget
      by_cases hne : e ≠ IDS.Char k
      · rw [if_pos hne]; exact hc tag e hget
      · rw [if_neg hne]; exact ih
    · exact ih

theorem expandAll_no_panic {T : IDSTable} {k : Char} {cont : IDS → Except MErr Bool}
    (hc : ∀ tag e, tableGet T (k, tag) = some e → cont e ≠ .error .panicked) :
    ∀ {tags_ : List Tag}, expandAll T k cont tags_ ≠ .error .panicked := by
  intro tags_
  induction tags_ with
  | nil => rw [expandAll]; simp
  | cons tag rest ih =>
    rw [expandAll]
    split
    · rename_i e hget
      by_cases hne : e ≠ IDS.Char k
      · rw [if_pos hne]
        split
        · simp
        · exact ih
        · rename_i er hc2
          intro hcon
          injection hcon with hcon2
          subst hcon2
          exact hc tag e hget hc2
      · rw [if_neg hne]; exact ih
    · exact ih

theorem allPairs_no_panic {m : IDS → IDS → Except MErr Bool} :
    ∀ {l : List (IDS × IDS)}, (∀ p ∈ l, m p.1 p.2 ≠ .error .panicked) →
      allPairs m l ≠ .error .panicked := by
  intro l
  induction l with
  | nil => intro _; rw [allPairs]; simp
  | cons p rest ih =>
    intro hp
    obtain ⟨x, y⟩ := p
    rw [allPairs]
    split
    · exact ih fun q hq => hp q (List.mem_cons_of_mem _ hq)
    · simp
    · rename_i er hm
      intro hcon
      injection hcon with hcon2
      subst hcon2
      exact hp (x, y) (List.mem_cons_self _ _) hm

theorem anyChild_no_panic {m : IDS → Except MErr Bool} :
    ∀ {l : List IDS}, (∀ x ∈ l, m x ≠ .error .panicked) →
      anyChild m l ≠ .error .panicked := by
  intro l
  induction l with
  | nil => intro _; rw [anyChild]; simp
  | cons x rest ih =>
    intro hp
    rw [anyChild]
    split
    · simp
    · exact ih fun q hq => hp q (List.mem_cons_of_mem _ hq)
    · rename_i er hm
      intro hcon
      injection hcon with hcon2
      subst hcon2
      exact hp x (List.mem_cons_self _ _) hm

theorem eAnd_no_panic {x y : Except MErr Bool} (hx : x ≠ .error .panicked)
    (hy : y ≠ .error .panicked) : eAnd x y ≠ .error .panicked := by
  cases x with
  | ok bx =>
    cases bx
    · simp [eAnd]
    · simpa [eAnd] using hy
  | error e =>
    simp only [eAnd]
    intro hcon
    exact hx hcon

theorem eOr_no_panic {x y : Except MErr Bool} (hx : x ≠ .error .panicked)
    (hy : y ≠ .error .panicked) : eOr x y ≠ .error .panicked := by
  cases x with
  | ok bx =>
    cases bx
    · simpa [eOr] using hy
    · simp [eOr]
  | error e =>
    simp only [eOr]
    intro hcon
    exact hx hcon

theorem regroup_no_panic {m : IDS → IDS → Except MErr Bool} {xc : IDC} {xs ys : List IDS}
    (hm : ∀ x y, WFb x = true → WFb y = true → m x y ≠ .error .panicked)
    (hxs : xs.length = 3) (hys : ys.length = 2)
    (hWxs : WFlist xs = true) (hWys : WFlist ys = true)
    (hred : ∃ rc, xc.reduce = some rc ∧ rc.arity = 2) :
    regroup m xc xs ys ≠ .error .panicked := by
  obtain ⟨rc, hrc, harc⟩ := hred
  match xs, hxs with
  | [x0, x1, x2], _ =>
    match ys, hys with
    | [y0, y1], _ =>
      rw [regroup, hrc]
      have hx0 : WFb x0 = true := WFlist_mem hWxs (by simp)
      have hx1 : WFb x1 = true := WFlist_mem hWxs (by simp)
      have hx2 : WFb x2 = true := WFlist_mem hWxs (by simp)
      have hy0 : WFb y0 = true := WFlist_mem hWys (by simp)
      have hy1 : WFb y1 = true := WFlist_mem hWys (by simp)
      have hab : WFb (.Composition rc [x0, x1]) = true := by
        rw [WFb, harc]
        simp [WFlist, hx0, hx1]
      have hbc : WFb (.Composition rc [x1, x2]) = true := by
        rw [WFb, harc]
        simp [WFlist, hx1, hx2]
      exact eOr_no_panic
        (eAnd_no_panic (hm _ _ hab hy0) (hm _ _ hx2 hy1))
        (eAnd_no_panic (hm _ _ hx0 hy0) (hm _ _ hbc hy1))

theorem matchStep_no_panic {T : IDSTable} {m : IDS → IDS → Except MErr Bool}
    (hT : wfTable T = true)
    (hm : ∀ x y, WFb x = true → WFb y = true → m x y ≠ .error .panicked) :
    ∀ {a b : IDS} {w : Char}, WFb a = true → WFb b = true →
      matchStep T m a b w ≠ .error .panicked := by
  intro a b w ha hb
  rw [matchStep.eq_def]
  by_cases hwa : isWild a w
  · rw [if_pos hwa]; simp
  · rw [if_neg hwa]
    by_cases hwb : isWild b w
    · rw [if_pos hwb]; simp
    · rw [if_neg hwb]
      split
      · simp
      · simp
      · rename_i k yc ys
        split
        · simp
        · exact expandLoop_no_panic fun tag e hget =>
            hm e _ (tableGet_WF hT hget) hb
      · exact hm _ _ hb ha
      · rename_i xc xs yc ys
        obtain ⟨hlx, hWx⟩ := WFb_comp ha
        obtain ⟨hly, hWy⟩ := WFb_comp hb
        by_cases hxy : xc = yc
        · rw [if_pos hxy]
          exact allPairs_no_panic fun p hp => by
            obtain ⟨hp1, hp2⟩ := List.of_mem_zip hp
            exact hm _ _ (WFlist_mem hWx hp1) (WFlist_mem hWy hp2)
        · rw [if_neg hxy]
          by_cases hreg : xc.arity = 3 ∧ yc.arity = 2 ∧ xc.is_same_direction yc = true
          · rw [if_pos hreg]
            exact regroup_no_panic hm (hlx.trans hreg.1) (hly.trans hreg.2.1) hWx hWy
              (arity_three_reduce hreg.1)
          · rw [if_neg hreg]
            by_cases harr : xc.arity = 2 ∧ yc.arity = 3
            · rw [if_pos harr]
              exact hm _ _ hb ha
            · rw [if_neg harr]
              simp
      · rcases a with x | s | ⟨xc, xs⟩ <;> rcases b with y | t | ⟨yc, ys⟩ <;> simp

theorem ids_matchF_no_panic {T : IDSTable} (hT : wfTable T = true) :
    ∀ {f : Nat} {a b : IDS} {w : Char}, WFb a = true → WFb b = true →
      ids_matchF f T a b w ≠ .error .panicked := by
  intro f
  induction f with
  | zero => intro a b w _ _; rw [ids_matchF]; simp
  | succ f ih =>
    intro a b w ha hb
    rw [ids_matchF]
    exact matchStep_no_panic hT (fun x y hx hy => ih hx hy) ha hb

theorem hmsStep_no_panic {T : IDSTable} {mids m : IDS → IDS → Except MErr Bool}
    (hT : wfTable T = true)
    (hmi : ∀ x y, WFb x = true → WFb y = true → mids x y ≠ .error .panicked)
    (hm : ∀ x y, WFb x = true → WFb y = true → m x y ≠ .error .panicked) :
    ∀ {a b : IDS} {w : Char}, WFb a = true → WFb b = true →
      hmsStep T mids m a b w ≠ .error .panicked := by
  intro a b w ha hb
  rw [hmsStep.eq_def]
  split
  · rename_i e hids
    intro hcon
    injection hcon with hcon2
    subst hcon2
    exact hmi _ _ ha hb hids
  · simp
  · by_cases hwa : isWild a w
    · rw [if_pos hwa]; simp
    · rw [if_neg hwa]
      by_cases hwb : isWild b w
      · rw [if_pos hwb]; simp
      · rw [if_neg hwb]
        split
        · simp
        · simp
        · simp
        · simp
        · rename_i k yc ys
          split
          · simp
          · exact expandLoop_no_panic fun tag e hget =>
              hm e _ (tableGet_WF hT hget) hb
        · rename_i xc xs
          have hWx := (WFb_comp ha).2
          exact anyChild_no_panic fun x hx =>
            hm _ _ (WFlist_mem hWx hx) hb

theorem ids_has_matching_subcomponentF_no_panic {T : IDSTable} (hT : wfTable T = true) :
    ∀ {f : Nat} {a b : IDS} {w : Char}, WFb a = true → WFb b = true →
      ids_has_matching_subcomponentF f T a b w ≠ .error .panicked := by
  intro f
  induction f with
  | zero => intro a b w _ _; rw [ids_has_matching_subcomponentF]; simp
  | succ f ih =>
    intro a b w ha hb
    rw [ids_has_matching_subcomponentF]
    exact hmsStep_no_panic hT (fun x y hx hy => ids_matchF_no_panic hT hx hy)
      (fun x y hx hy => ih hx hy) ha hb

theorem hsStep_no_panic {T : IDSTable} {m : IDS → IDS → Except MErr Bool}
    (hm : ∀ x y, m x y ≠ .error .panicked) :
    ∀ {a b : IDS}, hsStep T m a b ≠ .error .panicked := by
  intro a b
  rw [hsStep.eq_def]
  by_cases heq : a = b
  · rw [if_pos heq]; simp
  · rw [if_neg heq]
    split
    · simp
    · simp
    · rename_i x y
      by_cases hxy : x = y
      · rw [if_pos hxy]; simp
      · rw [if_neg hxy]
        by_cases htg : (tagsGet T x).isNone
        · rw [if_pos htg]; simp
        · rw [if_neg htg]
          split
          · simp
          · exact expandAll_no_panic fun tag e hget => hm _ _
    · split
      · simp
      · exact expandAll_no_panic fun tag e hget => hm _ _
    · exact anyChild_no_panic fun x hx => hm _ _

theorem ids_has_subcomponentF_no_panic :
    ∀ {f : Nat} {T : IDSTable} {a b : IDS},
      ids_has_subcomponentF f T a b ≠ .error .panicked := by
  intro f
  induction f with
  | zero => intro T a b; rw [ids_has_subcomponentF]; simp
  | succ f ih =>
    intro T a b
    rw [ids_has_subcomponentF]
    exact hsStep_no_panic fun x y => ih

end HanziSearch
namespace HanziSearch

theorem maxRank_append {rk : Char → Nat} :
    ∀ {l1 l2 : List Char}, maxRank rk (l1 ++ l2) = max (maxRank rk l1) (maxRank rk l2) := by
  intro l1
  induction l1 with
  | nil => intro l2; simp [maxRank]
  | cons c cs ih =>
    intro l2
    simp only [List.cons_append, maxRank, List.append_eq, ih, Nat.max_assoc]

theorem maxRank_lt {rk : Char → Nat} {R : Nat} (hR : 0 < R) :
    ∀ {l : List Char}, (∀ c ∈ l, rk c < R) → maxRank rk l < R := by
  intro l
  induction l with
  | nil => intro _; simpa [maxRank] using hR
  | cons c cs ih =>
    intro h
    rw [maxRank]
    exact Nat.max_lt.mpr ⟨h c (List.mem_cons_self _ _),
      ih fun d hd => h d (List.mem_cons_of_mem _ hd)⟩

theorem rankOf_char {rk : Char → Nat} {k : Char} : rankOf rk (.Char k) = rk k := by
  simp [rankOf, atomsOf, maxRank]

theorem maxRank_atomsL_le {rk : Char → Nat} :
    ∀ {cs : List IDS} {t : IDS}, t ∈ cs → maxRank rk (atomsOf t) ≤ maxRank rk (atomsL cs) := by
  intro cs
  induction cs with
  | nil => intro t h; simp at h
  | cons x rest ih =>
    intro t h
    rw [atomsL, maxRank_append]
    rcases List.mem_cons.mp h with h1 | h1
    · subst h1; exact Nat.le_max_left _ _
    · exact Nat.le_trans (ih h1) (Nat.le_max_right _ _)

theorem rankOf_child_le {rk : Char → Nat} {idc : IDC} {cs : List IDS} {t : IDS}
    (h : t ∈ cs) : rankOf rk t ≤ rankOf rk (.Composition idc cs) := by
  rw [rankOf, rankOf, atomsOf]
  exact maxRank_atomsL_le h

theorem sizeI_pos : ∀ t : IDS, 1 ≤ sizeI t := by
  intro t
  cases t <;> simp [sizeI]

theorem sizeI_le_sizeL : ∀ {cs : List IDS} {t : IDS}, t ∈ cs → sizeI t ≤ sizeL cs := by
  intro cs
  induction cs with
  | nil => intro t h; simp at h
  | cons x rest ih =>
    intro t h
    rw [sizeL]
    rcases List.mem_cons.mp h with h1 | h1
    · subst h1; omega
    · have := ih h1; omega

theorem sizeI_child_lt {idc : IDC} {cs : List IDS} {t : IDS} (h : t ∈ cs) :
    sizeI t < sizeI (.Composition idc cs) := by
  rw [sizeI]
  have := sizeI_le_sizeL h
  omega

theorem firstNonSelfAux_spec {T : IDSTable} {k : Char} :
    ∀ {tags_ : List Tag} {e : IDS}, firstNonSelfAux T k tags_ = some e →
      ∃ tag ∈ tags_, tableGet T (k, tag) = some e ∧ e ≠ .Char k := by
  intro tags_
  induction tags_ with
  | nil => intro e h; simp [firstNonSelfAux] at h
  | cons tag rest ih =>
    intro e h
    rw [firstNonSelfAux] at h
    split at h
    · rename_i e2 hget
      by_cases hne : e2 ≠ IDS.Char k
      · rw [if_pos hne] at h
        injection h with h2
        subst h2
        exact ⟨tag, List.mem_cons_self _ _, hget, hne⟩
      · rw [if_neg hne] at h
        obtain ⟨tg, hm, hget2, hne2⟩ := ih h
        exact ⟨tg, List.mem_cons_of_mem _ hm, hget2, hne2⟩
    · obtain ⟨tg, hm, hget2, hne2⟩ := ih h
      exact ⟨tg, List.mem_cons_of_mem _ hm, hget2, hne2⟩

theorem ranked_expansion {T : IDSTable} {rk : Char → Nat} (hT : rankedTable T rk = true)
    {k : Char} {tags_ : List Tag} {tag : Tag} {e : IDS}
    (htg : tagsGet T k = some tags_) (hmem : tag ∈ tags_)
    (hget : tableGet T (k, tag) = some e) (hne : e ≠ .Char k) :
    rankOf rk e < rk k := by
  have hmem2 := lookupA_mem htg
  rw [rankedTable] at hT
  have h1 := List.all_eq_true.mp hT _ hmem2
  have h2 := List.all_eq_true.mp h1 _ hmem
  rw [hget] at h2
  simp only [Bool.or_eq_true, Bool.and_eq_true, decide_eq_true_eq, List.all_eq_true] at h2
  rcases h2 with h2 | ⟨hpos, hlt⟩
  · exact absurd h2 hne
  · exact maxRank_lt hpos fun c hc => hlt c hc

theorem exists_uniform_fuel {α : Type} {P : Nat → α → Prop}
    (mono : ∀ f f2 x, f ≤ f2 → P f x → P f2 x) :
    ∀ (l : List α), (∀ x ∈ l, ∃ f, P f x) → ∃ F, ∀ x ∈ l, P F x := by
  intro l
  induction l with
  | nil => intro _; exact ⟨0, by simp⟩
  | cons x rest ih =>
    intro h
    obtain ⟨fx, hfx⟩ := h x (List.mem_cons_self _ _)
    obtain ⟨F, hF⟩ := ih fun y hy => h y (List.mem_cons_of_mem _ hy)
    refine ⟨max fx F, fun y hy => ?_⟩
    rcases List.mem_cons.mp hy with h1 | h1
    · subst h1; exact mono _ _ _ (Nat.le_max_left _ _) hfx
    · exact mono _ _ _ (Nat.le_max_right _ _) (hF y h1)

theorem allPairs_ok {m : IDS → IDS → Except MErr Bool} :
    ∀ {l : List (IDS × IDS)}, (∀ p ∈ l, ∃ bl, m p.1 p.2 = .ok bl) →
      ∃ bl, allPairs m l = .ok bl := by
  intro l
  induction l with
  | nil => intro _; exact ⟨true, rfl⟩
  | cons p rest ih =>
    intro h
    obtain ⟨x, y⟩ := p
    obtain ⟨b0, hb0⟩ := h (x, y) (List.mem_cons_self _ _)
    rw [allPairs, hb0]
    cases b0
    · exact ⟨false, rfl⟩
    · exact ih fun q hq => h q (List.mem_cons_of_mem _ hq)

theorem anyChild_ok {m : IDS → Except MErr Bool} :
    ∀ {l : List IDS}, (∀ x ∈ l, ∃ bl, m x = .ok bl) → ∃ bl, anyChild m l = .ok bl := by
  intro l
  induction l with
  | nil => intro _; exact ⟨false, rfl⟩
  | cons x rest ih =>
    intro h
    obtain ⟨b0, hb0⟩ := h x (List.mem_cons_self _ _)
    rw [anyChild, hb0]
    cases b0
    · exact ih fun q hq => h q (List.mem_cons_of_mem _ hq)
    · exact ⟨true, rfl⟩

theorem expandAll_ok {T : IDSTable} {k : Char} {cont : IDS → Except MErr Bool} :
    ∀ {tags_ : List Tag},
      (∀ tag ∈ tags_, ∀ e, tableGet T (k, tag) = some e → e ≠ .Char k → ∃ bl, cont e = .ok bl) →
      ∃ bl, expandAll T k cont tags_ = .ok bl := by
  intro tags_
  induction tags_ with
  | nil => intro _; exact ⟨false, rfl⟩
  | cons tag rest ih =>
    intro h
    rw [expandAll]
    split
    · rename_i e hget
      by_cases hne : e ≠ IDS.Char k
      · rw [if_pos hne]
        obtain ⟨b0, hb0⟩ := h tag (List.mem_cons_self _ _) e hget hne
        rw [hb0]
        cases b0
        · exact ih fun tg htg e2 hg2 hn2 => h tg (List.mem_cons_of_mem _ htg) e2 hg2 hn2
        · exact ⟨true, rfl⟩
      · rw [if_neg hne]
        exact ih fun tg htg e2 hg2 hn2 => h tg (List.mem_cons_of_mem _ htg) e2 hg2 hn2
    · exact ih fun tg htg e2 hg2 hn2 => h tg (List.mem_cons_of_mem _ htg) e2 hg2 hn2

theorem eAnd_ok {x y : Except MErr Bool} (hx : ∃ b1, x = .ok b1) (hy : ∃ b2, y = .ok b2) :
    ∃ b3, eAnd x y = .ok b3 := by
  obtain ⟨b1, hb1⟩ := hx
  obtain ⟨b2, hb2⟩ := hy
  subst hb1
  cases b1
  · exact ⟨false, rfl⟩
  · rw [eAnd, hb2]; exact ⟨b2, rfl⟩

theorem eOr_ok {x y : Except MErr Bool} (hx : ∃ b1, x = .ok b1) (hy : ∃ b2, y = .ok b2) :
    ∃ b3, eOr x y = .ok b3 := by
  obtain ⟨b1, hb1⟩ := hx
  obtain ⟨b2, hb2⟩ := hy
  subst hb1
  cases b1
  · rw [eOr, hb2]; exact ⟨b2, rfl⟩
  · exact ⟨true, rfl⟩

end HanziSearch
namespace HanziSearch

theorem isWild_char {k w : Char} : isWild (.Char k) w = (k == w) := rfl

theorem isWild_special {s : String} {w : Char} : isWild (.Special s) w = false := rfl

theorem isWild_comp {xc : IDC} {xs : List IDS} {w : Char} :
    isWild (.Composition xc xs) w = false := rfl

theorem matchStep_wild_left {T : IDSTable} {m : IDS → IDS → Except MErr Bool} {a b : IDS}
    {w : Char} (h : isWild a w = true) : matchStep T m a b w = .ok true := by
  rw [matchStep.eq_def, if_pos h]

theorem matchStep_wild_right {T : IDSTable} {m : IDS → IDS → Except MErr Bool} {a b : IDS}
    {w : Char} (ha : isWild a w = false) (h : isWild b w = true) :
    matchStep T m a b w = .ok true := by
  rw [matchStep.eq_def, if_neg (by simp [ha]), if_pos h]

theorem matchStep_char_char {T : IDSTable} {m : IDS → IDS → Except MErr Bool} {x y w : Char}
    (hx : (x == w) = false) (hy : (y == w) = false) :
    matchStep T m (.Char x) (.Char y) w = .ok (x == y) := by
  rw [matchStep.eq_def, if_neg (by simp [isWild_char, hx]), if_neg (by simp [isWild_char, hy])]

theorem matchStep_special_special {T : IDSTable} {m : IDS → IDS → Except MErr Bool}
    {s t : String} {w : Char} :
    matchStep T m (.Special s) (.Special t) w = .ok (s == t) := by
  rw [matchStep.eq_def, if_neg (by simp [isWild_special]), if_neg (by simp [isWild_special])]

theorem matchStep_char_special {T : IDSTable} {m : IDS → IDS → Except MErr Bool}
    {x : Char} {t : String} {w : Char} (hx : (x == w) = false) :
    matchStep T m (.Char x) (.Special t) w = .ok false := by
  rw [matchStep.eq_def, if_neg (by simp [isWild_char, hx]), if_neg (by simp [isWild_special])]

theorem matchStep_special_char {T : IDSTable} {m : IDS → IDS → Except MErr Bool}
    {s : String} {y w : Char} (hy : (y == w) = false) :
    matchStep T m (.Special s) (.Char y) w = .ok false := by
  rw [matchStep.eq_def, if_neg (by simp [isWild_special]), if_neg (by simp [isWild_char, hy])]

theorem matchStep_special_comp {T : IDSTable} {m : IDS → IDS → Except MErr Bool}
    {s : String} {yc : IDC} {ys : List IDS} {w : Char} :
    matchStep T m (.Special s) (.Composition yc ys) w = .ok false := by
  rw [matchStep.eq_def, if_neg (by simp [isWild_special]), if_neg (by simp [isWild_comp])]

theorem matchStep_comp_special {T : IDSTable} {m : IDS → IDS → Except MErr Bool}
    {xc : IDC} {xs : List IDS} {t : String} {w : Char} :
    matchStep T m (.Composition xc xs) (.Special t) w = .ok false := by
  rw [matchStep.eq_def, if_neg (by simp [isWild_comp]), if_neg (by simp [isWild_special])]

theorem matchStep_char_comp {T : IDSTable} {m : IDS → IDS → Except MErr Bool}
    {k : Char} {yc : IDC} {ys : List IDS} {w : Char} (hk : (k == w) = false) :
    matchStep T m (.Char k) (.Composition yc ys) w =
      match tagsGet T k with
      | none => .ok false
      | some k_tags => expandLoop T k (fun e => m e (.Composition yc ys)) k_tags := by
  rw [matchStep.eq_def, if_neg (by simp [isWild_char, hk]), if_neg (by simp [isWild_comp])]

theorem matchStep_comp_char {T : IDSTable} {m : IDS → IDS → Except MErr Bool}
    {xc : IDC} {xs : List IDS} {y w : Char} (hy : (y == w) = false) :
    matchStep T m (.Composition xc xs) (.Char y) w = m (.Char y) (.Composition xc xs) := by
  rw [matchStep.eq_def, if_neg (by simp [isWild_comp]), if_neg (by simp [isWild_char, hy])]

theorem matchStep_comp_comp {T : IDSTable} {m : IDS → IDS → Except MErr Bool}
    {xc yc : IDC} {xs ys : List IDS} {w : Char} :
    matchStep T m (.Composition xc xs) (.Composition yc ys) w =
      if xc = yc then allPairs m (xs.zip ys)
      else if xc.arity = 3 ∧ yc.arity = 2 ∧ xc.is_same_direction yc = true then
        regroup m xc xs ys
      else if xc.arity = 2 ∧ yc.arity = 3 then
        m (.Composition yc ys) (.Composition xc xs)
      else .ok false := by
  rw [matchStep.eq_def, if_neg (by simp [isWild_comp]), if_neg (by simp [isWild_comp])]

theorem ids_matchF_succ {f : Nat} {T : IDSTable} {a b : IDS} {w : Char} :
    ids_matchF (f + 1) T a b w =
      matchStep T (fun x y => ids_matchF f T x y w) a b w := by
  rw [ids_matchF]

end HanziSearch
namespace HanziSearch

theorem matchStep_char_comp_tags {T : IDSTable} {m : IDS → IDS → Except MErr Bool}
    {k : Char} {yc : IDC} {ys : List IDS} {w : Char} {tags_ : List Tag}
    (hk : (k == w) = false) (htg : tagsGet T k = some tags_) :
    matchStep T m (.Char k) (.Composition yc ys) w =
      expandLoop T k (fun e => m e (.Composition yc ys)) tags_ := by
  rw [matchStep_char_comp hk, htg]

theorem matchStep_char_comp_none {T : IDSTable} {m : IDS → IDS → Except MErr Bool}
    {k : Char} {yc : IDC} {ys : List IDS} {w : Char}
    (hk : (k == w) = false) (htg : tagsGet T k = none) :
    matchStep T m (.Char k) (.Composition yc ys) w = .ok false := by
  rw [matchStep_char_comp hk, htg]

theorem hmsStep_char_comp {T : IDSTable} {mids m : IDS → IDS → Except MErr Bool}
    {k : Char} {yc : IDC} {ys : List IDS} {w : Char}
    (hmid : mids (.Char k) (.Composition yc ys) = .ok false) (hk : (k == w) = false) :
    hmsStep T mids m (.Char k) (.Composition yc ys) w =
      match tagsGet T k with
      | none => .ok false
      | some a_tags => expandLoop T k (fun e => m e (.Composition yc ys)) a_tags := by
  rw [hmsStep.eq_def]
  simp only [hmid]
  rw [if_neg (by simp [isWild_char, hk]), if_neg (by simp [isWild_comp])]

theorem hmsStep_comp {T : IDSTable} {mids m : IDS → IDS → Except MErr Bool}
    {xc : IDC} {xs : List IDS} {b : IDS} {w : Char}
    (hmid : mids (.Composition xc xs) b = .ok false) (hb : isWild b w = false) :
    hmsStep T mids m (.Composition xc xs) b w = anyChild (fun x => m x b) xs := by
  rw [hmsStep.eq_def]
  simp only [hmid]
  rw [if_neg (by simp [isWild_comp]), if_neg (by simp [hb])]

theorem hmsStep_special_special {T : IDSTable} {mids m : IDS → IDS → Except MErr Bool}
    {s t : String} {w : Char} (hmid : mids (.Special s) (.Special t) = .ok false) :
    hmsStep T mids m (.Special s) (.Special t) w = .ok (s == t) := by
  rw [hmsStep.eq_def]
  simp only [hmid]
  rw [if_neg (by simp [isWild_special]), if_neg (by simp [isWild_special])]

theorem hmsStep_special_other {T : IDSTable} {mids m : IDS → IDS → Except MErr Bool}
    {s : String} {b : IDS} {w : Char} (hmid : mids (.Special s) b = .ok false)
    (hb : isWild b w = false) (hbs : ∀ t, b ≠ .Special t) :
    hmsStep T mids m (.Special s) b w = .ok false := by
  rw [hmsStep.eq_def]
  simp only [hmid]
  rw [if_neg (by simp [isWild_special]), if_neg (by simp [hb])]

theorem hmsStep_char_char {T : IDSTable} {mids m : IDS → IDS → Except MErr Bool}
    {x y w : Char} (hmid : mids (.Char x) (.Char y) = .ok false)
    (hx : (x == w) = false) (hy : (y == w) = false) :
    hmsStep T mids m (.Char x) (.Char y) w = .ok (x == y) := by
  rw [hmsStep.eq_def]
  simp only [hmid]
  rw [if_neg (by simp [isWild_char, hx]), if_neg (by simp [isWild_char, hy])]

theorem hmsStep_char_special {T : IDSTable} {mids m : IDS → IDS → Except MErr Bool}
    {x : Char} {t : String} {w : Char} (hmid : mids (.Char x) (.Special t) = .ok false)
    (hx : (x == w) = false) :
    hmsStep T mids m (.Char x) (.Special t) w = .ok false := by
  rw [hmsStep.eq_def]
  simp only [hmid]
  rw [if_neg (by simp [isWild_char, hx]), if_neg (by simp [isWild_special])]

theorem hmsStep_wild_left {T : IDSTable} {mids m : IDS → IDS → Except MErr Bool}
    {a b : IDS} {w : Char} (hmid : mids a b = .ok false) (ha : isWild a w = true) :
    hmsStep T mids m a b w = .ok true := by
  rw [hmsStep.eq_def]
  simp only [hmid]
  rw [if_pos ha]

theorem hmsStep_wild_right {T : IDSTable} {mids m : IDS → IDS → Except MErr Bool}
    {a b : IDS} {w : Char} (hmid : mids a b = .ok false) (ha : isWild a w = false)
    (hb : isWild b w = true) :
    hmsStep T mids m a b w = .ok true := by
  rw [hmsStep.eq_def]
  simp only [hmid]
  rw [if_neg (by simp [ha]), if_pos hb]

theorem hmsStep_of_match_true {T : IDSTable} {mids m : IDS → IDS → Except MErr Bool}
    {a b : IDS} {w : Char} (hmid : mids a b = .ok true) :
    hmsStep T mids m a b w = .ok true := by
  rw [hmsStep.eq_def, hmid]

theorem hms_succ {f : Nat} {T : IDSTable} {a b : IDS} {w : Char} :
    ids_has_matching_subcomponentF (f + 1) T a b w =
      hmsStep T (fun x y => ids_matchF f T x y w)
        (fun x y => ids_has_matching_subcomponentF f T x y w) a b w := by
  rw [ids_has_matching_subcomponentF]

theorem hs_succ {f : Nat} {T : IDSTable} {a b : IDS} :
    ids_has_subcomponentF (f + 1) T a b =
      hsStep T (fun x y => ids_has_subcomponentF f T x y) a b := by
  rw [ids_has_subcomponentF]

theorem hsStep_self {T : IDSTable} {m : IDS → IDS → Except MErr Bool} {a b : IDS}
    (h : a = b) : hsStep T m a b = .ok true := by
  rw [hsStep.eq_def, if_pos h]

theorem hsStep_special_special {T : IDSTable} {m : IDS → IDS → Except MErr Bool}
    {s t : String} (h : (IDS.Special s : IDS) ≠ .Special t) :
    hsStep T m (.Special s) (.Special t) = .ok (s == t) := by
  rw [hsStep.eq_def, if_neg h]

theorem hsStep_special_other {T : IDSTable} {m : IDS → IDS → Except MErr Bool}
    {s : String} {b : IDS} (hne : (IDS.Special s : IDS) ≠ b)
    (hb : ∀ t, b ≠ .Special t) : hsStep T m (.Special s) b = .ok false := by
  rw [hsStep.eq_def, if_neg hne]
  rcases b with y | t | ⟨yc, ys⟩
  · rfl
  · exact absurd rfl (hb t)
  · rfl

theorem hsStep_char_char {T : IDSTable} {m : IDS → IDS → Except MErr Bool} {x y : Char}
    (hne : x ≠ y) :
    hsStep T m (.Char x) (.Char y) =
      (if (tagsGet T x).isNone then .ok false
       else
         match tagsGet T x with
         | none => .ok false
         | some tags_ => expandAll T x (fun e => m e (.Char y)) tags_) := by
  rw [hsStep.eq_def, if_neg (by simp [hne])]
  show (if x = y then Except.ok true
        else if (tagsGet T x).isNone = true then Except.ok false
        else
          match tagsGet T x with
          | none => Except.ok false
          | some tags_ => expandAll T x (fun e => m e (IDS.Char y)) tags_) = _
  rw [if_neg hne]

theorem hsStep_char_other {T : IDSTable} {m : IDS → IDS → Except MErr Bool} {x : Char}
    {b : IDS} (hne : (IDS.Char x : IDS) ≠ b) (hb : ∀ y, b ≠ .Char y) :
    hsStep T m (.Char x) b =
      (match tagsGet T x with
       | none => .ok false
       | some tags_ => expandAll T x (fun e => m e b) tags_) := by
  rw [hsStep.eq_def, if_neg hne]
  rcases b with y | t | ⟨yc, ys⟩
  · exact absurd rfl (hb y)
  · rfl
  · rfl

theorem hsStep_comp {T : IDSTable} {m : IDS → IDS → Except MErr Bool} {xc : IDC}
    {xs : List IDS} {b : IDS} (hne : (IDS.Composition xc xs : IDS) ≠ b) :
    hsStep T m (.Composition xc xs) b = anyChild (fun c => m c b) xs := by
  rw [hsStep.eq_def, if_neg hne]

theorem swapFlag_le_one : ∀ a b : IDS, swapFlag a b ≤ 1 := by
  intro a b
  rw [swapFlag.eq_def]
  split
  · omega
  · split <;> omega
  · omega

end HanziSearch
namespace HanziSearch

theorem regroup_eq {m : IDS → IDS → Except MErr Bool} {xc : IDC} {x0 x1 x2 y0 y1 : IDS}
    {xs2 ys2 : List IDS} {rc : IDC} (hrc : xc.reduce = some rc) :
    regroup m xc (x0 :: x1 :: x2 :: xs2) (y0 :: y1 :: ys2) =
      eOr (eAnd (m (.Composition rc [x0, x1]) y0) (m x2 y1))
          (eAnd (m x0 y0) (m (.Composition rc [x1, x2]) y1)) := by
  rw [regroup, hrc]

theorem ids_matchF_term_aux {T : IDSTable} {rk : Char → Nat} {w : Char}
    (hT : rankedTable T rk = true) (hW : wfTable T = true) :
    ∀ n : Nat, ∀ m : Nat, ∀ a b : IDS,
      rankOf rk a + rankOf rk b ≤ n →
      2 * (sizeI a + sizeI b) + swapFlag a b ≤ m →
      WFb a = true → WFb b = true →
      ∃ f bl, ids_matchF f T a b w = .ok bl := by
  intro n
  induction n using Nat.strong_induction_on with
  | _ n ihn =>
  intro m
  induction m using Nat.strong_induction_on with
  | _ m ihm =>
  intro a b hrank hsize ha hb
  by_cases hwa : isWild a w
  · exact ⟨1, true, by rw [ids_matchF_succ, matchStep_wild_left hwa]⟩
  · have hwa2 : isWild a w = false := by simpa using hwa
    by_cases hwb : isWild b w
    · exact ⟨1, true, by rw [ids_matchF_succ, matchStep_wild_right hwa2 hwb]⟩
    · have hwb2 : isWild b w = false := by simpa using hwb
      rcases a with x | s | ⟨xc, xs⟩ <;> rcases b with y | t | ⟨yc, ys⟩
      · exact ⟨1, x == y, by rw [ids_matchF_succ, matchStep_char_char hwa2 hwb2]⟩
      · exact ⟨1, false, by rw [ids_matchF_succ, matchStep_char_special hwa2]⟩
      · -- Char vs Composition: expand through the table
        cases htg : tagsGet T x with
        | none => exact ⟨1, false, by rw [ids_matchF_succ, matchStep_char_comp_none hwa2 htg]⟩
        | some tags_ =>
          cases hfst : firstNonSelfAux T x tags_ with
          | none =>
            refine ⟨1, false, ?_⟩
            rw [ids_matchF_succ, matchStep_char_comp_tags hwa2 htg,
              expandLoop_eq_firstNonSelf, hfst]
          | some e =>
            obtain ⟨tag, hmem, hget, hne⟩ := firstNonSelfAux_spec hfst
            have hre : rankOf rk e < rk x := ranked_expansion hT htg hmem hget hne
            have hWe : WFb e = true := tableGet_WF hW hget
            have hrx : rankOf rk (IDS.Char x) = rk x := rankOf_char
            have hlt : rankOf rk e + rankOf rk (IDS.Composition yc ys) < n := by omega
            obtain ⟨f, bl, hf⟩ := ihn _ hlt
              (2 * (sizeI e + sizeI (IDS.Composition yc ys)) + swapFlag e (IDS.Composition yc ys))
              e (IDS.Composition yc ys) le_rfl le_rfl hWe hb
            refine ⟨f + 1, bl, ?_⟩
            rw [ids_matchF_succ, matchStep_char_comp_tags hwa2 htg,
              expandLoop_eq_firstNonSelf, hfst]
            exact hf
      · exact ⟨1, false, by rw [ids_matchF_succ, matchStep_special_char hwb2]⟩
      · exact ⟨1, s == t, by rw [ids_matchF_succ, matchStep_special_special]⟩
      · exact ⟨1, false, by rw [ids_matchF_succ, matchStep_special_comp]⟩
      · -- Composition vs Char: swap
        have hfl : swapFlag (IDS.Composition xc xs) (IDS.Char y) = 1 := rfl
        have hfl2 : swapFlag (IDS.Char y) (IDS.Composition xc xs) = 0 := rfl
        have hm2 : 2 * (sizeI (IDS.Char y) + sizeI (IDS.Composition xc xs)) +
            swapFlag (IDS.Char y) (IDS.Composition xc xs) < m := by omega
        obtain ⟨f, bl, hf⟩ := ihm _ hm2 (IDS.Char y) (IDS.Composition xc xs)
          (by omega) le_rfl hb ha
        refine ⟨f + 1, bl, ?_⟩
        rw [ids_matchF_succ, matchStep_comp_char hwb2]
        exact hf
      · exact ⟨1, false, by rw [ids_matchF_succ, matchStep_comp_special]⟩
      · -- Composition vs Composition
        obtain ⟨hlx, hWx⟩ := WFb_comp ha
        obtain ⟨hly, hWy⟩ := WFb_comp hb
        have hflab := swapFlag_le_one (IDS.Composition xc xs) (IDS.Composition yc ys)
        by_cases hxy : xc = yc
        · have hmono : ∀ f f2 (p : IDS × IDS), f ≤ f2 →
              (∃ bl, ids_matchF f T p.1 p.2 w = .ok bl) →
              (∃ bl, ids_matchF f2 T p.1 p.2 w = .ok bl) :=
            fun f f2 p hle h => h.elim fun bl hbl => ⟨bl, ids_matchF_mono_le hle hbl⟩
          have hall : ∀ p ∈ xs.zip ys, ∃ f bl, ids_matchF f T p.1 p.2 w = .ok bl := by
            intro p hp
            obtain ⟨hp1, hp2⟩ := List.of_mem_zip hp
            have hs1 : sizeI p.1 < sizeI (IDS.Composition xc xs) := sizeI_child_lt hp1
            have hs2 : sizeI p.2 < sizeI (IDS.Composition yc ys) := sizeI_child_lt hp2
            have hfl := swapFlag_le_one p.1 p.2
            have hr1 : rankOf rk p.1 ≤ rankOf rk (IDS.Composition xc xs) := rankOf_child_le hp1
            have hr2 : rankOf rk p.2 ≤ rankOf rk (IDS.Composition yc ys) := rankOf_child_le hp2
            exact ihm (2 * (sizeI p.1 + sizeI p.2) + swapFlag p.1 p.2) (by omega)
              p.1 p.2 (by omega) le_rfl (WFlist_mem hWx hp1) (WFlist_mem hWy hp2)
          obtain ⟨F, hF⟩ := exists_uniform_fuel hmono (xs.zip ys) hall
          obtain ⟨bl, hbl⟩ := allPairs_ok (m := fun x y => ids_matchF F T x y w) hF
          refine ⟨F + 1, bl, ?_⟩
          rw [ids_matchF_succ, matchStep_comp_comp, if_pos hxy]
          exact hbl
        · by_cases hreg : xc.arity = 3 ∧ yc.arity = 2 ∧ xc.is_same_direction yc = true
          · obtain ⟨x0, x1, x2, hxs⟩ := List.length_eq_three.mp (hlx.trans hreg.1)
            obtain ⟨y0, y1, hys⟩ := List.length_eq_two.mp (hly.trans hreg.2.1)
            subst hxs; subst hys
            obtain ⟨rc, hrc, harc⟩ := arity_three_reduce hreg.1
            have hWx0 : WFb x0 = true := WFlist_mem hWx (by simp)
            have hWx1 : WFb x1 = true := WFlist_mem hWx (by simp)
            have hWx2 : WFb x2 = true := WFlist_mem hWx (by simp)
            have hWy0 : WFb y0 = true := WFlist_mem hWy (by simp)
            have hWy1 : WFb y1 = true := WFlist_mem hWy (by simp)
            have hWab : WFb (.Composition rc [x0, x1]) = true := by
              rw [WFb, harc]; simp [WFlist, hWx0, hWx1]
            have hWbc : WFb (.Composition rc [x1, x2]) = true := by
              rw [WFb, harc]; simp [WFlist, hWx1, hWx2]
            have hsx0 := sizeI_pos x0
            have hsx1 := sizeI_pos x1
            have hsx2 := sizeI_pos x2
            have hsy0 := sizeI_pos y0
            have hsy1 := sizeI_pos y1
            have hsa : sizeI (IDS.Composition xc [x0, x1, x2]) =
                1 + (sizeI x0 + (sizeI x1 + (sizeI x2 + 0))) := by
              simp [sizeI, sizeL]
            have hsb : sizeI (IDS.Composition yc [y0, y1]) =
                1 + (sizeI y0 + (sizeI y1 + 0)) := by
              simp [sizeI, sizeL]
            have hsab : sizeI (IDS.Composition rc [x0, x1]) =
                1 + (sizeI x0 + (sizeI x1 + 0)) := by
              simp [sizeI, sizeL]
            have hsbc : sizeI (IDS.Composition rc [x1, x2]) =
                1 + (sizeI x1 + (sizeI x2 + 0)) := by
              simp [sizeI, sizeL]
            have hra : rankOf rk (IDS.Composition xc [x0, x1, x2]) =
                max (rankOf rk x0) (max (rankOf rk x1) (max (rankOf rk x2) 0)) := by
              simp [rankOf, atomsOf, atomsL, maxRank_append, maxRank]
            have hrb : rankOf rk (IDS.Composition yc [y0, y1]) =
                max (rankOf rk y0) (max (rankOf rk y1) 0) := by
              simp [rankOf, atomsOf, atomsL, maxRank_append, maxRank]
            have hrab : rankOf rk (IDS.Composition rc [x0, x1]) =
                max (rankOf rk x0) (max (rankOf rk x1) 0) := by
              simp [rankOf, atomsOf, atomsL, maxRank_append, maxRank]
            have hrbc : rankOf rk (IDS.Composition rc [x1, x2]) =
                max (rankOf rk x1) (max (rankOf rk x2) 0) := by
              simp [rankOf, atomsOf, atomsL, maxRank_append, maxRank]
            have hfl1 := swapFlag_le_one (IDS.Composition rc [x0, x1]) y0
            have hfl2 := swapFlag_le_one x2 y1
            have hfl3 := swapFlag_le_one x0 y0
            have hfl4 := swapFlag_le_one (IDS.Composition rc [x1, x2]) y1
            obtain ⟨f1, bl1, hf1⟩ := ihm
              (2 * (sizeI (IDS.Composition rc [x0, x1]) + sizeI y0) +
                swapFlag (IDS.Composition rc [x0, x1]) y0)
              (by omega) (IDS.Composition rc [x0, x1]) y0 (by omega) le_rfl hWab hWy0
            obtain ⟨f2, bl2, hf2⟩ := ihm
              (2 * (sizeI x2 + sizeI y1) + swapFlag x2 y1) (by omega) x2 y1
              (by
                have h1 : rankOf rk x2 ≤ rankOf rk (IDS.Composition xc [x0, x1, x2]) :=
                  rankOf_child_le (by simp)
                have h2 : rankOf rk y1 ≤ rankOf rk (IDS.Composition yc [y0, y1]) :=
                  rankOf_child_le (by simp)
                omega)
              le_rfl hWx2 hWy1
            obtain ⟨f3, bl3, hf3⟩ := ihm
              (2 * (sizeI x0 + sizeI y0) + swapFlag x0 y0) (by omega) x0 y0
              (by
                have h1 : rankOf rk x0 ≤ rankOf rk (IDS.Composition xc [x0, x1, x2]) :=
                  rankOf_child_le (by simp)
                have h2 : rankOf rk y0 ≤ rankOf rk (IDS.Composition yc [y0, y1]) :=
                  rankOf_child_le (by simp)
                omega)
              le_rfl hWx0 hWy0
            obtain ⟨f4, bl4, hf4⟩ := ihm
              (2 * (sizeI (IDS.Composition rc [x1, x2]) + sizeI y1) +
                swapFlag (IDS.Composition rc [x1, x2]) y1)
              (by omega) (IDS.Composition rc [x1, x2]) y1 (by omega) le_rfl hWbc hWy1
            set F := max f1 (max f2 (max f3 f4)) with hF
            have hg1 : ids_matchF F T (IDS.Composition rc [x0, x1]) y0 w = .ok bl1 :=
              ids_matchF_mono_le (by omega) hf1
            have hg2 : ids_matchF F T x2 y1 w = .ok bl2 :=
              ids_matchF_mono_le (by omega) hf2
            have hg3 : ids_matchF F T x0 y0 w = .ok bl3 :=
              ids_matchF_mono_le (by omega) hf3
            have hg4 : ids_matchF F T (IDS.Composition rc [x1, x2]) y1 w = .ok bl4 :=
              ids_matchF_mono_le (by omega) hf4
            obtain ⟨bl, hbl⟩ := eOr_ok (eAnd_ok ⟨bl1, hg1⟩ ⟨bl2, hg2⟩)
              (eAnd_ok ⟨bl3, hg3⟩ ⟨bl4, hg4⟩)
            refine ⟨F + 1, bl, ?_⟩
            rw [ids_matchF_succ, matchStep_comp_comp, if_neg hxy, if_pos hreg,
              regroup_eq hrc, hg1, hg2, hg3, hg4]
            rw [hg1, hg2, hg3, hg4] at hbl
            exact hbl
          · by_cases harr : xc.arity = 2 ∧ yc.arity = 3
            · have hfl : swapFlag (IDS.Composition xc xs) (IDS.Composition yc ys) = 1 := by
                rw [swapFlag]
                rw [if_pos ⟨hxy, hreg, harr.1, harr.2⟩]
              have hfl2 : swapFlag (IDS.Composition yc ys) (IDS.Composition xc xs) = 0 := by
                rw [swapFlag]
                rw [if_neg ?_]
                rintro ⟨-, -, h22, -⟩
                rw [harr.2] at h22
                omega
              obtain ⟨f, bl, hf⟩ := ihm
                (2 * (sizeI (IDS.Composition yc ys) + sizeI (IDS.Composition xc xs)) +
                  swapFlag (IDS.Composition yc ys) (IDS.Composition xc xs))
                (by omega) (IDS.Composition yc ys) (IDS.Composition xc xs)
                (by omega) le_rfl hb ha
              refine ⟨f + 1, bl, ?_⟩
              rw [ids_matchF_succ, matchStep_comp_comp, if_neg hxy, if_neg hreg, if_pos harr]
              exact hf
            · exact ⟨1, false, by
                rw [ids_matchF_succ, matchStep_comp_comp, if_neg hxy, if_neg hreg,
                  if_neg harr]⟩

end HanziSearch
namespace HanziSearch

theorem ids_matchF_terminates {T : IDSTable} {rk : Char → Nat} {w : Char}
    (hT : rankedTable T rk = true) (hW : wfTable T = true)
    {a b : IDS} (ha : WFb a = true) (hb : WFb b = true) :
    ∃ f bl, ids_matchF f T a b w = .ok bl :=
  ids_matchF_term_aux hT hW _ _ a b le_rfl le_rfl ha hb

theorem hsStep_char_char_tags {T : IDSTable} {m : IDS → IDS → Except MErr Bool}
    {x y : Char} {tags_ : List Tag} (hne : x ≠ y) (htg : tagsGet T x = some tags_) :
    hsStep T m (.Char x) (.Char y) = expandAll T x (fun e => m e (.Char y)) tags_ := by
  rw [hsStep_char_char hne, htg]
  rfl

theorem hsStep_char_char_none {T : IDSTable} {m : IDS → IDS → Except MErr Bool}
    {x y : Char} (hne : x ≠ y) (htg : tagsGet T x = none) :
    hsStep T m (.Char x) (.Char y) = .ok false := by
  rw [hsStep_char_char hne, htg]
  rfl

theorem hsStep_char_other_tags {T : IDSTable} {m : IDS → IDS → Except MErr Bool}
    {x : Char} {b : IDS} {tags_ : List Tag} (hne : (IDS.Char x : IDS) ≠ b)
    (hb : ∀ y, b ≠ .Char y) (htg : tagsGet T x = some tags_) :
    hsStep T m (.Char x) b = expandAll T x (fun e => m e b) tags_ := by
  rw [hsStep_char_other hne hb, htg]

theorem hsStep_char_other_none {T : IDSTable} {m : IDS → IDS → Except MErr Bool}
    {x : Char} {b : IDS} (hne : (IDS.Char x : IDS) ≠ b)
    (hb : ∀ y, b ≠ .Char y) (htg : tagsGet T x = none) :
    hsStep T m (.Char x) b = .ok false := by
  rw [hsStep_char_other hne hb, htg]

theorem ids_has_subcomponentF_term_aux {T : IDSTable} {rk : Char → Nat}
    (hT : rankedTable T rk = true) :
    ∀ n : Nat, ∀ m : Nat, ∀ hay needle : IDS,
      rankOf rk hay ≤ n → sizeI hay ≤ m →
      ∃ f bl, ids_has_subcomponentF f T hay needle = .ok bl := by
  intro n
  induction n using Nat.strong_induction_on with
  | _ n ihn =>
  intro m
  induction m using Nat.strong_induction_on with
  | _ m ihm =>
  intro hay needle hrank hsize
  by_cases heq : hay = needle
  · exact ⟨1, true, by rw [hs_succ, hsStep_self heq]⟩
  · have hexpand : ∀ (x : Char) (tags_ : List Tag), hay = IDS.Char x →
        tagsGet T x = some tags_ →
        ∃ F, ∀ tag ∈ tags_, ∀ e, tableGet T (x, tag) = some e → e ≠ .Char x →
          ∃ bl, ids_has_subcomponentF F T e needle = .ok bl := by
      intro x tags_ hhay htg
      subst hhay
      have hmono : ∀ f f2 (tag : Tag), f ≤ f2 →
          (∀ e, tableGet T (x, tag) = some e → e ≠ .Char x →
            ∃ bl, ids_has_subcomponentF f T e needle = .ok bl) →
          (∀ e, tableGet T (x, tag) = some e → e ≠ .Char x →
            ∃ bl, ids_has_subcomponentF f2 T e needle = .ok bl) := by
        intro f f2 tag hle hp e hget hne
        obtain ⟨bl, hbl⟩ := hp e hget hne
        exact ⟨bl, ids_has_subcomponentF_mono_le hle hbl⟩
      refine exists_uniform_fuel hmono tags_ ?_
      intro tag hmem
      cases hget : tableGet T (x, tag) with
      | none => exact ⟨0, fun e hg _ => absurd hg (by simp)⟩
      | some e =>
        by_cases hne : e = IDS.Char x
        · refine ⟨0, fun e2 hg hne2 => ?_⟩
          injection hg with hg2
          subst hg2
          exact absurd hne hne2
        · have hre : rankOf rk e < rk x := ranked_expansion hT htg hmem hget hne
          have hrx : rankOf rk (IDS.Char x) = rk x := rankOf_char
          obtain ⟨f, bl, hf⟩ := ihn (rankOf rk e) (by omega) (sizeI e) e needle le_rfl le_rfl
          refine ⟨f, fun e2 hg hne2 => ?_⟩
          injection hg with hg2
          subst hg2
          exact ⟨bl, hf⟩
    rcases hay with x | s | ⟨xc, xs⟩
    · rcases needle with y | t | ⟨yc, ys⟩
      · have hne : x ≠ y := fun hh => heq (by rw [hh])
        cases htg : tagsGet T x with
        | none => exact ⟨1, false, by rw [hs_succ, hsStep_char_char_none hne htg]⟩
        | some tags_ =>
          obtain ⟨F, hF⟩ := hexpand x tags_ rfl htg
          obtain ⟨bl, hbl⟩ : ∃ bl, expandAll T x
              (fun e => ids_has_subcomponentF F T e (IDS.Char y)) tags_ = .ok bl :=
            expandAll_ok hF
          exact ⟨F + 1, bl, by rw [hs_succ, hsStep_char_char_tags hne htg]; exact hbl⟩
      · cases htg : tagsGet T x with
        | none =>
          exact ⟨1, false, by
            rw [hs_succ, hsStep_char_other_none heq (by intro y hh; exact IDS.noConfusion hh) htg]⟩
        | some tags_ =>
          obtain ⟨F, hF⟩ := hexpand x tags_ rfl htg
          obtain ⟨bl, hbl⟩ : ∃ bl, expandAll T x
              (fun e => ids_has_subcomponentF F T e (IDS.Special t)) tags_ = .ok bl :=
            expandAll_ok hF
          exact ⟨F + 1, bl, by
            rw [hs_succ,
              hsStep_char_other_tags heq (by intro y hh; exact IDS.noConfusion hh) htg]
            exact hbl⟩
      · cases htg : tagsGet T x with
        | none =>
          exact ⟨1, false, by
            rw [hs_succ, hsStep_char_other_none heq (by intro y hh; exact IDS.noConfusion hh) htg]⟩
        | some tags_ =>
          obtain ⟨F, hF⟩ := hexpand x tags_ rfl htg
          obtain ⟨bl, hbl⟩ : ∃ bl, expandAll T x
              (fun e => ids_has_subcomponentF F T e (IDS.Composition yc ys)) tags_ = .ok bl :=
            expandAll_ok hF
          exact ⟨F + 1, bl, by
            rw [hs_succ,
              hsStep_char_other_tags heq (by intro y hh; exact IDS.noConfusion hh) htg]
            exact hbl⟩
    · rcases needle with y | t | ⟨yc, ys⟩
      · exact ⟨1, false, by
          rw [hs_succ, hsStep_special_other heq (by intro t2 hh; exact IDS.noConfusion hh)]⟩
      · exact ⟨1, s == t, by rw [hs_succ, hsStep_special_special heq]⟩
      · exact ⟨1, false, by
          rw [hs_succ, hsStep_special_other heq (by intro t2 hh; exact IDS.noConfusion hh)]⟩
    · have hmono : ∀ f f2 (c : IDS), f ≤ f2 →
          (∃ bl, ids_has_subcomponentF f T c needle = .ok bl) →
          (∃ bl, ids_has_subcomponentF f2 T c needle = .ok bl) := by
        intro f f2 c hle hp
        obtain ⟨bl, hbl⟩ := hp
        exact ⟨bl, ids_has_subcomponentF_mono_le hle hbl⟩
      have hall : ∀ c ∈ xs, ∃ f bl, ids_has_subcomponentF f T c needle = .ok bl := by
        intro c hc
        have hs1 : sizeI c < sizeI (IDS.Composition xc xs) := sizeI_child_lt hc
        have hr1 : rankOf rk c ≤ rankOf rk (IDS.Composition xc xs) := rankOf_child_le hc
        exact ihm (sizeI c) (by omega) c needle (by omega) le_rfl
      obtain ⟨F, hF⟩ := exists_uniform_fuel hmono xs hall
      obtain ⟨bl, hbl⟩ := anyChild_ok (m := fun c => ids_has_subcomponentF F T c needle) hF
      exact ⟨F + 1, bl, by rw [hs_succ, hsStep_comp heq]; exact hbl⟩

theorem ids_has_subcomponentF_terminates {T : IDSTable} {rk : Char → Nat}
    (hT : rankedTable T rk = true) {hay needle : IDS} :
    ∃ f bl, ids_has_subcomponentF f T hay needle = .ok bl :=
  ids_has_subcomponentF_term_aux hT _ _ hay needle le_rfl le_rfl

end HanziSearch
namespace HanziSearch

theorem ids_has_matching_subcomponentF_term_aux {T : IDSTable} {rk : Char → Nat} {w : Char}
    (hT : rankedTable T rk = true) (hW : wfTable T = true) :
    ∀ n : Nat, ∀ m : Nat, ∀ a b : IDS,
      rankOf rk a ≤ n → sizeI a ≤ m → WFb a = true → WFb b = true →
      ∃ f bl, ids_has_matching_subcomponentF f T a b w = .ok bl := by
  intro n
  induction n using Nat.strong_induction_on with
  | _ n ihn =>
  intro m
  induction m using Nat.strong_induction_on with
  | _ m ihm =>
  intro a b hrank hsize ha hb
  by_cases hwa : isWild a w
  · refine ⟨2, true, ?_⟩
    rw [hms_succ]
    exact hmsStep_of_match_true
      (show ids_matchF 1 T a b w = .ok true by rw [ids_matchF_succ, matchStep_wild_left hwa])
  · have hwa2 : isWild a w = false := by simpa using hwa
    by_cases hwb : isWild b w
    · refine ⟨2, true, ?_⟩
      rw [hms_succ]
      exact hmsStep_of_match_true
        (show ids_matchF 1 T a b w = .ok true by
          rw [ids_matchF_succ, matchStep_wild_right hwa2 hwb])
    · have hwb2 : isWild b w = false := by simpa using hwb
      obtain ⟨f0, bl0, hf0⟩ := ids_matchF_terminates hT hW ha hb (w := w)
      cases bl0 with
      | true => exact ⟨f0 + 1, true, by rw [hms_succ]; exact hmsStep_of_match_true hf0⟩
      | false =>
        rcases a with x | s | ⟨xc, xs⟩
        · have hx : (x == w) = false := by rw [← isWild_char (w := w)]; exact hwa2
          rcases b with y | t | ⟨yc, ys⟩
          · have hy : (y == w) = false := by rw [← isWild_char (w := w)]; exact hwb2
            exact ⟨f0 + 1, x == y, by rw [hms_succ]; exact hmsStep_char_char hf0 hx hy⟩
          · exact ⟨f0 + 1, false, by rw [hms_succ]; exact hmsStep_char_special hf0 hx⟩
          · cases htg : tagsGet T x with
            | none =>
              refine ⟨f0 + 1, false, ?_⟩
              rw [hms_succ, hmsStep_char_comp hf0 hx, htg]
            | some tags_ =>
              cases hfst : firstNonSelfAux T x tags_ with
              | none =>
                refine ⟨f0 + 1, false, ?_⟩
                rw [hms_succ, hmsStep_char_comp hf0 hx, htg]
                exact show expandLoop T x
                    (fun e => ids_has_matching_subcomponentF f0 T e (IDS.Composition yc ys) w)
                    tags_ = Except.ok false by
                  rw [expandLoop_eq_firstNonSelf, hfst]
              | some e =>
                obtain ⟨tag, hmem, hget, hne⟩ := firstNonSelfAux_spec hfst
                have hre : rankOf rk e < rk x := ranked_expansion hT htg hmem hget hne
                have hWe : WFb e = true := tableGet_WF hW hget
                have hrx : rankOf rk (IDS.Char x) = rk x := rankOf_char
                obtain ⟨f1, bl, hf1⟩ := ihn (rankOf rk e) (by omega) (sizeI e)
                  e (IDS.Composition yc ys) le_rfl le_rfl hWe hb
                refine ⟨max f0 f1 + 1, bl, ?_⟩
                rw [hms_succ,
                  hmsStep_char_comp (ids_matchF_mono_le (Nat.le_max_left f0 f1) hf0) hx,
                  htg]
                exact show expandLoop T x
                    (fun e => ids_has_matching_subcomponentF (max f0 f1) T e
                      (IDS.Composition yc ys) w) tags_ = Except.ok bl by
                  rw [expandLoop_eq_firstNonSelf, hfst]
                  exact ids_has_matching_subcomponentF_mono_le (Nat.le_max_right f0 f1) hf1
        · rcases b with y | t | ⟨yc, ys⟩
          · exact ⟨f0 + 1, false, by
              rw [hms_succ]
              exact hmsStep_special_other hf0 hwb2 (by intro t2 hh; exact IDS.noConfusion hh)⟩
          · exact ⟨f0 + 1, s == t, by rw [hms_succ]; exact hmsStep_special_special hf0⟩
          · exact ⟨f0 + 1, false, by
              rw [hms_succ]
              exact hmsStep_special_other hf0 hwb2 (by intro t2 hh; exact IDS.noConfusion hh)⟩
        · obtain ⟨hlx, hWx⟩ := WFb_comp ha
          have hmono : ∀ f f2 (c : IDS), f ≤ f2 →
              (∃ bl, ids_has_matching_subcomponentF f T c b w = .ok bl) →
              (∃ bl, ids_has_matching_subcomponentF f2 T c b w = .ok bl) := by
            intro f f2 c hle hp
            obtain ⟨bl, hbl⟩ := hp
            exact ⟨bl, ids_has_matching_subcomponentF_mono_le hle hbl⟩
          have hall : ∀ c ∈ xs, ∃ f bl,
              ids_has_matching_subcomponentF f T c b w = .ok bl := by
            intro c hc
            have hs1 : sizeI c < sizeI (IDS.Composition xc xs) := sizeI_child_lt hc
            have hr1 : rankOf rk c ≤ rankOf rk (IDS.Composition xc xs) := rankOf_child_le hc
            exact ihm (sizeI c) (by omega) c b (by omega) le_rfl (WFlist_mem hWx hc) hb
          obtain ⟨F1, hF1⟩ := exists_uniform_fuel hmono xs hall
          obtain ⟨bl, hbl⟩ := anyChild_ok
            (m := fun c => ids_has_matching_subcomponentF (max f0 F1) T c b w)
            (fun c hc => hmono F1 (max f0 F1) c (Nat.le_max_right f0 F1) (hF1 c hc))
          refine ⟨max f0 F1 + 1, bl, ?_⟩
          rw [hms_succ,
            hmsStep_comp (ids_matchF_mono_le (Nat.le_max_left f0 F1) hf0) hwb2]
          exact hbl

theorem ids_has_matching_subcomponentF_terminates {T : IDSTable} {rk : Char → Nat}
    {w : Char} (hT : rankedTable T rk = true) (hW : wfTable T = true)
    {a b : IDS} (ha : WFb a = true) (hb : WFb b = true) :
    ∃ f bl, ids_has_matching_subcomponentF f T a b w = .ok bl :=
  ids_has_matching_subcomponentF_term_aux hT hW _ _ a b le_rfl le_rfl ha hb

end HanziSearch
namespace HanziSearch

theorem char_beq_comm (x y : Char) : (x == y) = (y == x) := by
  by_cases h : x = y
  · subst h; rfl
  · rw [beq_eq_false_iff_ne.mpr h, beq_eq_false_iff_ne.mpr (Ne.symm h)]

theorem string_beq_comm (x y : String) : (x == y) = (y == x) := by
  by_cases h : x = y
  · subst h; rfl
  · rw [beq_eq_false_iff_ne.mpr h, beq_eq_false_iff_ne.mpr (Ne.symm h)]

theorem allPairs_swap {T : IDSTable} {w : Char} {f : Nat}
    (ih : ∀ x y r, ids_matchF f T x y w = .ok r → ∃ g, ids_matchF g T y x w = .ok r) :
    ∀ {l : List (IDS × IDS)} {r : Bool},
      allPairs (fun x y => ids_matchF f T x y w) l = .ok r →
      ∃ G, allPairs (fun x y => ids_matchF G T x y w) (l.map Prod.swap) = .ok r := by
  intro l
  induction l with
  | nil => intro r hr; exact ⟨0, by simpa [allPairs] using hr⟩
  | cons p rest ihl =>
    intro r hr
    obtain ⟨x, y⟩ := p
    rw [allPairs] at hr
    split at hr
    · rename_i hm
      obtain ⟨g1, hg1⟩ := ih x y true hm
      obtain ⟨G2, hG2⟩ := ihl hr
      refine ⟨max g1 G2, ?_⟩
      rw [List.map_cons, show Prod.swap (x, y) = (y, x) from rfl, allPairs,
        ids_matchF_mono_le (Nat.le_max_left g1 G2) hg1]
      exact allPairs_mono
        (fun u v r2 h2 => ids_matchF_mono_le (Nat.le_max_right g1 G2) h2) hG2
    · rename_i hm
      obtain ⟨g1, hg1⟩ := ih x y false hm
      refine ⟨g1, ?_⟩
      rw [List.map_cons, show Prod.swap (x, y) = (y, x) from rfl, allPairs, hg1]
      exact hr
    · exact absurd hr (by simp)

theorem ids_matchF_symm {T : IDSTable} {w : Char} :
    ∀ f : Nat, ∀ a b : IDS, ∀ r : Bool,
      ids_matchF f T a b w = .ok r → ∃ g, ids_matchF g T b a w = .ok r := by
  intro f
  induction f using Nat.strong_induction_on with
  | _ f ih =>
  intro a b r h
  cases f with
  | zero => exact absurd h (by rw [ids_matchF]; simp)
  | succ f =>
  have horig : ids_matchF (f + 1) T a b w = .ok r := h
  rw [ids_matchF_succ] at h
  by_cases hwa : isWild a w
  · rw [matchStep_wild_left hwa] at h
    injection h with h2
    subst h2
    by_cases hwb : isWild b w
    · exact ⟨1, by rw [ids_matchF_succ, matchStep_wild_left hwb]⟩
    · exact ⟨1, by
        rw [ids_matchF_succ, matchStep_wild_right (by simpa using hwb) hwa]⟩
  · have hwa2 : isWild a w = false := by simpa using hwa
    by_cases hwb : isWild b w
    · rw [matchStep_wild_right hwa2 hwb] at h
      injection h with h2
      subst h2
      exact ⟨1, by rw [ids_matchF_succ, matchStep_wild_left hwb]⟩
    · have hwb2 : isWild b w = false := by simpa using hwb
      rcases a with x | s | ⟨xc, xs⟩ <;> rcases b with y | t | ⟨yc, ys⟩
      · have hx : (x == w) = false := by rw [← isWild_char (w := w)]; exact hwa2
        have hy : (y == w) = false := by rw [← isWild_char (w := w)]; exact hwb2
        rw [matchStep_char_char hx hy] at h
        injection h with h2
        subst h2
        exact ⟨1, by rw [ids_matchF_succ, matchStep_char_char hy hx, char_beq_comm]⟩
      · have hx : (x == w) = false := by rw [← isWild_char (w := w)]; exact hwa2
        rw [matchStep_char_special hx] at h
        injection h with h2
        subst h2
        exact ⟨1, by rw [ids_matchF_succ, matchStep_special_char hx]⟩
      · have hx : (x == w) = false := by rw [← isWild_char (w := w)]; exact hwa2
        refine ⟨f + 1 + 1, ?_⟩
        rw [ids_matchF_succ, matchStep_comp_char hx]
        exact horig
      · have hy : (y == w) = false := by rw [← isWild_char (w := w)]; exact hwb2
        rw [matchStep_special_char hy] at h
        injection h with h2
        subst h2
        exact ⟨1, by rw [ids_matchF_succ, matchStep_char_special hy]⟩
      · rw [matchStep_special_special] at h
        injection h with h2
        subst h2
        exact ⟨1, by rw [ids_matchF_succ, matchStep_special_special, string_beq_comm]⟩
      · rw [matchStep_special_comp] at h
        injection h with h2
        subst h2
        exact ⟨1, by rw [ids_matchF_succ, matchStep_comp_special]⟩
      · have hy : (y == w) = false := by rw [← isWild_char (w := w)]; exact hwb2
        rw [matchStep_comp_char hy] at h
        exact ⟨f, h⟩
      · rw [matchStep_comp_special] at h
        injection h with h2
        subst h2
        exact ⟨1, by rw [ids_matchF_succ, matchStep_special_comp]⟩
      · rw [matchStep_comp_comp] at h
        by_cases hxy : xc = yc
        · subst hxy
          rw [if_pos rfl] at h
          obtain ⟨G, hG⟩ := allPairs_swap
            (fun x y r2 hm => ih f (Nat.lt_succ_self f) x y r2 hm) h
          refine ⟨G + 1, ?_⟩
          rw [ids_matchF_succ, matchStep_comp_comp, if_pos rfl, ← List.zip_swap]
          exact hG
        · rw [if_neg hxy] at h
          have hyx : yc ≠ xc := fun hh => hxy hh.symm
          by_cases hreg : xc.arity = 3 ∧ yc.arity = 2 ∧ xc.is_same_direction yc = true
          · rw [if_pos hreg] at h
            refine ⟨f + 1 + 1, ?_⟩
            rw [ids_matchF_succ, matchStep_comp_comp, if_neg hyx,
              if_neg (by rintro ⟨h3, -, -⟩; rw [hreg.2.1] at h3; omega),
              if_pos ⟨hreg.2.1, hreg.1⟩]
            exact horig
          · rw [if_neg hreg] at h
            by_cases harr : xc.arity = 2 ∧ yc.arity = 3
            · rw [if_pos harr] at h
              exact ⟨f, h⟩
            · rw [if_neg harr] at h
              injection h with h2
              subst h2
              have hregflip : ¬(yc.arity = 3 ∧ xc.arity = 2 ∧
                  yc.is_same_direction xc = true) := by
                rintro ⟨h3, h4, -⟩
                exact harr ⟨h4, h3⟩
              by_cases hsw : yc.arity = 2 ∧ xc.arity = 3
              · refine ⟨f + 1 + 1, ?_⟩
                rw [ids_matchF_succ, matchStep_comp_comp, if_neg hyx,
                  if_neg hregflip, if_pos hsw]
                exact horig
              · exact ⟨1, by
                  rw [ids_matchF_succ, matchStep_comp_comp, if_neg hyx,
                    if_neg hregflip, if_neg hsw]⟩

theorem ids_matchF_det {T : IDSTable} {w : Char} {a b : IDS} {f1 f2 : Nat} {r1 r2 : Bool}
    (h1 : ids_matchF f1 T a b w = .ok r1) (h2 : ids_matchF f2 T a b w = .ok r2) :
    r1 = r2 := by
  have g1 := ids_matchF_mono_le (Nat.le_max_left f1 f2) h1
  have g2 := ids_matchF_mono_le (Nat.le_max_right f1 f2) h2
  rw [g1] at g2
  injection g2 with h3

end HanziSearch
namespace HanziSearch

theorem lookupA_insertA_self {α β : Type} [DecidableEq α] :
    ∀ (l : List (α × β)) (k : α) (v : β), lookupA (insertA l k v) k = some v := by
  intro l
  induction l with
  | nil => intro k v; simp [insertA, lookupA]
  | cons p rest ih =>
    intro k v
    obtain ⟨k2, v2⟩ := p
    rw [insertA]
    by_cases h : k2 = k
    · rw [if_pos h, lookupA, if_pos rfl]
    · rw [if_neg h, lookupA, if_neg h]
      exact ih k v

theorem lookupA_insertA_ne {α β : Type} [DecidableEq α] {k k2 : α} (hne : k2 ≠ k) :
    ∀ (l : List (α × β)) (v : β), lookupA (insertA l k v) k2 = lookupA l k2 := by
  intro l
  induction l with
  | nil =>
    intro v
    have h2 : k ≠ k2 := fun hh => hne hh.symm
    simp [insertA, lookupA, h2]
  | cons p rest ih =>
    intro v
    obtain ⟨k3, v3⟩ := p
    rw [insertA]
    by_cases h : k3 = k
    · subst h
      rw [if_pos rfl, lookupA, lookupA, if_neg (fun hh => hne hh.symm),
        if_neg (fun hh => hne hh.symm)]
    · rw [if_neg h, lookupA, lookupA]
      by_cases h2 : k3 = k2
      · rw [if_pos h2, if_pos h2]
      · rw [if_neg h2, if_neg h2]
        exact ih v

theorem lookupA_pushTag_self :
    ∀ (l : List (Char × List Tag)) (c : Char) (t : Tag),
      lookupA (pushTag l c t) c = some ((lookupA l c).getD [] ++ [t]) := by
  intro l
  induction l with
  | nil => intro c t; simp [pushTag, lookupA]
  | cons p rest ih =>
    intro c t
    obtain ⟨c2, ts⟩ := p
    rw [pushTag]
    by_cases h : c2 = c
    · rw [if_pos h, lookupA, if_pos h, lookupA, if_pos h]
      rfl
    · rw [if_neg h, lookupA, if_neg h, lookupA, if_neg h]
      exact ih c t

theorem lookupA_pushTag_ne {c c2 : Char} (hne : c2 ≠ c) :
    ∀ (l : List (Char × List Tag)) (t : Tag),
      lookupA (pushTag l c t) c2 = lookupA l c2 := by
  intro l
  induction l with
  | nil =>
    intro t
    have h2 : c ≠ c2 := fun hh => hne hh.symm
    simp [pushTag, lookupA, h2]
  | cons p rest ih =>
    intro t
    obtain ⟨c3, ts⟩ := p
    rw [pushTag]
    by_cases h : c3 = c
    · subst h
      rw [if_pos rfl, lookupA, lookupA, if_neg (fun hh => hne hh.symm),
        if_neg (fun hh => hne hh.symm)]
    · rw [if_neg h, lookupA, lookupA]
      by_cases h2 : c3 = c2
      · rw [if_pos h2, if_pos h2]
      · rw [if_neg h2, if_neg h2]
        exact ih t

theorem insertTagged_inv {st : IDSTable} {c : Char} {tids : TaggedIDS} {st2 : IDSTable}
    (hv : ∃ str, tids.tag = Tag.Variant str)
    (hI : TableInv st) (h : insertTagged st c tids = some st2) : TableInv st2 := by
  obtain ⟨A, B, C⟩ := hI
  rw [insertTagged] at h
  by_cases hk : (lookupA st.table (c, tids.tag)).isSome = true
  · rw [if_pos hk] at h
    obtain ⟨l, hl⟩ := B c tids.tag (by rw [tableGet]; exact hk)
    rw [tagsGet] at hl
    rw [hl] at h
    injection h with h2
    subst h2
    refine ⟨?_, ?_, ?_⟩
    · intro c2 tag2 l2 hget2 hmem2
      rw [tagsGet] at hget2
      rw [tableGet]
      by_cases hc : c2 = c
      · subst hc
        rw [lookupA_pushTag_self, hl] at hget2
        injection hget2 with hg
        subst hg
        rcases List.mem_append.mp hmem2 with hm | hm
        · by_cases ht : tag2 = Tag.Anon l.length
          · subst ht
            rw [lookupA_insertA_self]
            rfl
          · rw [lookupA_insertA_ne (fun hh => ht (congrArg Prod.snd hh))]
            have := A c2 tag2 l (by rw [tagsGet]; exact hl) hm
            rw [tableGet] at this
            exact this
        · have ht : tag2 = Tag.Anon l.length := by simpa using hm
          subst ht
          rw [lookupA_insertA_self]
          rfl
      · rw [lookupA_pushTag_ne hc] at hget2
        rw [lookupA_insertA_ne (fun hh => hc (congrArg Prod.fst hh))]
        have := A c2 tag2 l2 (by rw [tagsGet]; exact hget2) hmem2
        rw [tableGet] at this
        exact this
    · intro c2 tag2 hget2
      rw [tableGet] at hget2
      by_cases hc : c2 = c
      · subst hc
        exact ⟨_, by rw [tagsGet, lookupA_pushTag_self]⟩
      · rw [lookupA_insertA_ne (fun hh => hc (congrArg Prod.fst hh))] at hget2
        obtain ⟨l2, hl2⟩ := B c2 tag2 (by rw [tableGet]; exact hget2)
        refine ⟨l2, ?_⟩
        rw [tagsGet, lookupA_pushTag_ne hc]
        rw [tagsGet] at hl2
        exact hl2
    · intro c2 l2 s hget2
      rw [tagsGet] at hget2
      by_cases hc : c2 = c
      · subst hc
        rw [lookupA_pushTag_self, hl, Option.getD_some] at hget2
        injection hget2 with hg
        subst hg
        rw [List.count_append]
        have h0 : List.count (Tag.Variant s) [Tag.Anon l.length] = 0 :=
          List.count_eq_zero.mpr (by simp)
        have h1 := C c2 l s (by rw [tagsGet]; exact hl)
        omega
      · rw [lookupA_pushTag_ne hc] at hget2
        exact C c2 l2 s (by rw [tagsGet]; exact hget2)
  · rw [if_neg hk] at h
    injection h with h2
    subst h2
    obtain ⟨str, htag⟩ := hv
    refine ⟨?_, ?_, ?_⟩
    · intro c2 tag2 l2 hget2 hmem2
      rw [tagsGet] at hget2
      rw [tableGet]
      by_cases hc : c2 = c
      · subst hc
        rw [lookupA_pushTag_self] at hget2
        injection hget2 with hg
        subst hg
        rcases List.mem_append.mp hmem2 with hm | hm
        · by_cases ht : tag2 = tids.tag
          · subst ht
            rw [lookupA_insertA_self]
            rfl
          · rw [lookupA_insertA_ne (fun hh => ht (congrArg Prod.snd hh))]
            cases hlo : lookupA st.tags c2 with
            | none => rw [hlo] at hm; simp at hm
            | some lold =>
              rw [hlo] at hm
              have := A c2 tag2 lold (by rw [tagsGet]; exact hlo) hm
              rw [tableGet] at this
              exact this
        · have ht : tag2 = tids.tag := by simpa using hm
          subst ht
          rw [lookupA_insertA_self]
          rfl
      · rw [lookupA_pushTag_ne hc] at hget2
        rw [lookupA_insertA_ne (fun hh => hc (congrArg Prod.fst hh))]
        have := A c2 tag2 l2 (by rw [tagsGet]; exact hget2) hmem2
        rw [tableGet] at this
        exact this
    · intro c2 tag2 hget2
      rw [tableGet] at hget2
      by_cases hc : c2 = c
      · subst hc
        exact ⟨_, by rw [tagsGet, lookupA_pushTag_self]⟩
      · rw [lookupA_insertA_ne (fun hh => hc (congrArg Prod.fst hh))] at hget2
        obtain ⟨l2, hl2⟩ := B c2 tag2 (by rw [tableGet]; exact hget2)
        refine ⟨l2, ?_⟩
        rw [tagsGet, lookupA_pushTag_ne hc]
        rw [tagsGet] at hl2
        exact hl2
    · intro c2 l2 s hget2
      rw [tagsGet] at hget2
      by_cases hc : c2 = c
      · subst hc
        rw [lookupA_pushTag_self] at hget2
        injection hget2 with hg
        subst hg
        cases hlo : lookupA st.tags c2 with
        | none =>
          have := List.count_le_length (Tag.Variant s)
            ((Option.getD (none : Option (List Tag)) []) ++ [tids.tag])
          simpa using this
        | some lold =>
          rw [Option.getD_some, List.count_append]
          have hsing := List.count_le_length (Tag.Variant s) [tids.tag]
          by_cases hss : Tag.Variant s = tids.tag
          · have h0 : List.count (Tag.Variant s) lold = 0 := by
              refine List.count_eq_zero.mpr ?_
              intro hm
              have := A c2 (Tag.Variant s) lold (by rw [tagsGet]; exact hlo) hm
              rw [hss] at this
              rw [tableGet] at this
              exact hk this
            simp at hsing
            omega
          · have h0 : List.count (Tag.Variant s) [tids.tag] = 0 :=
              List.count_eq_zero.mpr (by simp [hss])
            have h1 := C c2 lold s (by rw [tagsGet]; exact hlo)
            omega
      · rw [lookupA_pushTag_ne hc] at hget2
        exact C c2 l2 s (by rw [tagsGet]; exact hget2)

theorem parser_tagged_ids_variant {fuel : Nat} {input : List Char}
    {tids : TaggedIDS} {rest : List Char}
    (h : parser_tagged_ids fuel input = some (tids, rest)) :
    ∃ str, tids.tag = Tag.Variant str := by
  rw [parser_tagged_ids] at h
  split at h
  · exact absurd h (by simp)
  · split at h
    · rename_i tagS rest2 heq2
      split at h
      · injection h with h2
        injection h2 with h3 h4
        exact ⟨tagS, by rw [← h3]⟩
      · exact absurd h (by simp)
    · split at h
      · injection h with h2
        injection h2 with h3 h4
        exact ⟨"", by rw [← h3]⟩
      · exact absurd h (by simp)

theorem parse_tagged_variant {s : String} {tids : TaggedIDS}
    (h : parse_tagged s = some tids) : ∃ str, tids.tag = Tag.Variant str := by
  rw [parse_tagged] at h
  split at h
  · rename_i tids2 heq
    injection h with h2
    subst h2
    exact parser_tagged_ids_variant heq
  · exact absurd h (by simp)
  · exact absurd h (by simp)

theorem processIds_inv :
    ∀ {ss : List String} {st : IDSTable} {c : Char} {st2 : IDSTable},
      TableInv st → processIds st c ss = some st2 → TableInv st2 := by
  intro ss
  induction ss with
  | nil =>
    intro st c st2 hI h
    rw [processIds] at h
    injection h with h2
    subst h2
    exact hI
  | cons s rest ih =>
    intro st c st2 hI h
    rw [processIds] at h
    split at h
    · exact ih hI h
    · rename_i tids hp
      split at h
      · exact absurd h (by simp)
      · rename_i st3 hins
        exact ih (insertTagged_inv (parse_tagged_variant hp) hI hins) h

theorem processLine_inv {st : IDSTable} {line : String} {st2 : IDSTable}
    (hI : TableInv st) (h : processLine st line = some st2) : TableInv st2 := by
  rw [processLine] at h
  split at h
  · injection h with h2; subst h2; exact hI
  · split at h
    · exact absurd h (by simp)
    · split at h
      · injection h with h2; subst h2; exact hI
      · exact processIds_inv hI h

theorem loadLines_inv :
    ∀ {lines : List String} {st st2 : IDSTable},
      TableInv st → loadLines st lines = some st2 → TableInv st2 := by
  intro lines
  induction lines with
  | nil =>
    intro st st2 hI h
    rw [loadLines] at h
    injection h with h2
    subst h2
    exact hI
  | cons line rest ih =>
    intro st st2 hI h
    rw [loadLines] at h
    split at h
    · exact absurd h (by simp)
    · rename_i st3 hline
      exact ih (processLine_inv hI hline) h

theorem processLineFile_inv {st : IDSTable} {line : String} {st2 : IDSTable}
    (hI : TableInv st) (h : processLineFile st line = some st2) : TableInv st2 := by
  rw [processLineFile] at h
  split at h
  · exact absurd h (by simp)
  · split at h
    · injection h with h2; subst h2; exact hI
    · exact processIds_inv hI h

theorem loadLinesFile_inv :
    ∀ {lines : List String} {st st2 : IDSTable},
      TableInv st → loadLinesFile st lines = some st2 → TableInv st2 := by
  intro lines
  induction lines with
  | nil =>
    intro st st2 hI h
    rw [loadLinesFile] at h
    injection h with h2
    subst h2
    exact hI
  | cons line rest ih =>
    intro st st2 hI h
    rw [loadLinesFile] at h
    split at h
    · exact absurd h (by simp)
    · rename_i st3 hline
      exact ih (processLineFile_inv hI hline) h

theorem emptyTable_inv : TableInv { table := [], tags := [] } := by
  refine ⟨?_, ?_, ?_⟩
  · intro c tag l hget
    rw [tagsGet] at hget
    exact absurd hget (by rw [lookupA]; simp)
  · intro c tag hget
    rw [tableGet] at hget
    exact absurd hget (by rw [lookupA]; simp)
  · intro c l s hget
    rw [tagsGet] at hget
    exact absurd hget (by rw [lookupA]; simp)

theorem load_from_string_inv {content : String} {T : IDSTable}
    (h : load_from_string content = some T) : TableInv T :=
  loadLines_inv emptyTable_inv h

theorem load_file_inv {lines : List String} {T : IDSTable}
    (h : load_file lines = some T) : TableInv T :=
  loadLinesFile_inv emptyTable_inv h

end HanziSearch
namespace HanziSearch

theorem collectF_nil_needles {fuel : Nat} {T : IDSTable} :
    ∀ l : List ((Char × Tag) × IDS), collectF fuel T [] l = .ok (l.map Prod.fst) := by
  intro l
  induction l with
  | nil => rw [collectF]; rfl
  | cons p rest ih =>
    obtain ⟨key, ids⟩ := p
    rw [collectF]
    show (match collectF fuel T [] rest with
          | .ok l2 => Except.ok (key :: l2)
          | .error er => .error er) = _
    rw [ih]
    rfl

theorem search_findF_nil {fuel : Nat} {T : IDSTable} :
    search_findF fuel T [] = .ok (some (sortBy keyLe (T.table.map Prod.fst))) := by
  rw [search_findF]
  show (match collectF fuel T [] T.table with
        | .ok result => Except.ok (some (sortBy keyLe result))
        | .error er => .error er) = _
  rw [collectF_nil_needles]

theorem insertSorted_headq {α : Type} (le : α → α → Bool) (x : α) :
    ∀ l : List α, (insertSorted le x l).head? = some x ∨
      (insertSorted le x l).head? = l.head? := by
  intro l
  cases l with
  | nil => exact Or.inl rfl
  | cons y ys =>
    rw [insertSorted]
    by_cases h : le y x = true
    · rw [if_pos h]; exact Or.inr rfl
    · rw [if_neg h]; exact Or.inl rfl

theorem insertSorted_chain {α : Type} {le : α → α → Bool}
    (htot : ∀ a b, le a b = true ∨ le b a = true) (x : α) :
    ∀ {l : List α}, List.Chain' (fun a b => le a b = true) l →
      List.Chain' (fun a b => le a b = true) (insertSorted le x l) := by
  intro l
  induction l with
  | nil => intro _; simp [insertSorted]
  | cons y ys ih =>
    intro h
    rw [insertSorted]
    by_cases hyx : le y x = true
    · rw [if_pos hyx, List.chain'_cons']
      constructor
      · intro z hz
        rcases insertSorted_headq le x ys with h1 | h1
        · rw [h1] at hz
          have hz2 : z = x := by simpa [eq_comm] using hz
          subst hz2
          exact hyx
        · rw [h1] at hz
          cases ys with
          | nil => simp at hz
          | cons u us =>
            have hz2 : z = u := by simpa [eq_comm] using hz
            subst hz2
            exact (List.chain'_cons.mp h).1
      · exact ih h.tail
    · rw [if_neg hyx, List.chain'_cons']
      refine ⟨?_, h⟩
      intro z hz
      have hz2 : z = y := by simpa [eq_comm] using hz
      subst hz2
      rcases htot x z with h1 | h1
      · exact h1
      · exact absurd h1 hyx

theorem sortBy_chain {α : Type} {le : α → α → Bool}
    (htot : ∀ a b, le a b = true ∨ le b a = true) :
    ∀ l : List α, List.Chain' (fun a b => le a b = true) (sortBy le l) := by
  intro l
  induction l with
  | nil => simp [sortBy]
  | cons x xs ih =>
    rw [sortBy]
    exact insertSorted_chain htot x ih

theorem insertSorted_perm {α : Type} {le : α → α → Bool} {x : α} :
    ∀ l : List α, (insertSorted le x l).Perm (x :: l) := by
  intro l
  induction l with
  | nil => exact List.Perm.refl _
  | cons y ys ih =>
    rw [insertSorted]
    by_cases h : le y x = true
    · rw [if_pos h]
      exact (ih.cons y).trans (List.Perm.swap x y ys)
    · rw [if_neg h]

theorem sortBy_perm {α : Type} {le : α → α → Bool} :
    ∀ l : List α, (sortBy le l).Perm l := by
  intro l
  induction l with
  | nil => exact List.Perm.refl _
  | cons x xs ih =>
    rw [sortBy]
    exact (insertSorted_perm (sortBy le xs)).trans (ih.cons x)

theorem strLeL_total : ∀ a b : List Char, strLeL a b = true ∨ strLeL b a = true := by
  intro a
  induction a with
  | nil => intro b; exact Or.inl rfl
  | cons x xs ih =>
    intro b
    cases b with
    | nil => exact Or.inr rfl
    | cons y ys =>
      rw [strLeL, strLeL]
      by_cases hxy : x = y
      · subst hxy
        rw [if_pos rfl, if_pos rfl]
        exact ih ys
      · rw [if_neg hxy, if_neg (fun hh => hxy hh.symm)]
        rcases Nat.lt_trichotomy x.toNat y.toNat with h1 | h1 | h1
        · exact Or.inl (by simpa using h1)
        · refine absurd ?_ hxy
          unfold Char.toNat at h1
          exact Char.ext (UInt32.toNat.inj h1)
        · exact Or.inr (by simpa using h1)

theorem tagLe_total : ∀ a b : Tag, tagLe a b = true ∨ tagLe b a = true := by
  intro a b
  cases a with
  | Variant s =>
    cases b with
    | Variant t => exact strLeL_total s.data t.data
    | Anon j => exact Or.inl rfl
  | Anon i =>
    cases b with
    | Variant t => exact Or.inr rfl
    | Anon j =>
      rw [tagLe, tagLe]
      rcases Nat.le_total i j with h | h
      · exact Or.inl (by simpa using h)
      · exact Or.inr (by simpa using h)

theorem keyLe_total : ∀ a b : Char × Tag, keyLe a b = true ∨ keyLe b a = true := by
  intro a b
  rw [keyLe, keyLe]
  by_cases h : a.1 = b.1
  · rw [if_pos h, if_pos h.symm]
    exact tagLe_total a.2 b.2
  · rw [if_neg h, if_neg (fun hh => h hh.symm)]
    rcases Nat.le_total a.1.toNat b.1.toNat with h1 | h1
    · exact Or.inl (by simpa using h1)
    · exact Or.inr (by simpa using h1)

end HanziSearch
namespace HanziSearch

theorem matchF_char_self {T : IDSTable} {w : Char} {f : Nat} {a : Char}
    (ha : (a == w) = false) :
    ids_matchF (f + 1) T (.Char a) (.Char a) w = .ok true := by
  rw [ids_matchF_succ, matchStep_char_char ha ha, beq_self_eq_true]

theorem matchF_pair_self {T : IDSTable} {w : Char} {f : Nat} {a b : Char}
    (ha : (a == w) = false) (hb : (b == w) = false) :
    ids_matchF (f + 2) T (.Composition ⟨'⿰'⟩ [.Char a, .Char b])
      (.Composition ⟨'⿰'⟩ [.Char a, .Char b]) w = .ok true := by
  rw [ids_matchF_succ, matchStep_comp_comp, if_pos rfl]
  rw [show ([IDS.Char a, IDS.Char b].zip [IDS.Char a, IDS.Char b]) =
    [(IDS.Char a, IDS.Char a), (IDS.Char b, IDS.Char b)] from rfl]
  rw [allPairs, matchF_char_self ha]
  show allPairs (fun x y => ids_matchF (f + 1) T x y w)
    [(IDS.Char b, IDS.Char b)] = .ok true
  rw [allPairs, matchF_char_self hb]
  rfl

theorem first_grouping_matches {T : IDSTable} {a b c w : Char}
    (ha : (a == w) = false) (hb : (b == w) = false) (hc : (c == w) = false) :
    ids_matchF 3 T (.Composition ⟨'⿲'⟩ [.Char a, .Char b, .Char c])
      (.Composition ⟨'⿰'⟩ [.Composition ⟨'⿰'⟩ [.Char a, .Char b], .Char c]) w =
      .ok true := by
  rw [ids_matchF_succ, matchStep_comp_comp, if_neg (by decide), if_pos (by decide),
    regroup_eq (show IDC.reduce ⟨'⿲'⟩ = some ⟨'⿰'⟩ by decide)]
  rw [matchF_pair_self ha hb, matchF_char_self hc]
  rfl

theorem second_grouping_matches {T : IDSTable} {rk : Char → Nat} {a b c w : Char}
    (hT : rankedTable T rk = true) (hW : wfTable T = true)
    (ha : (a == w) = false) (hb : (b == w) = false) (hc : (c == w) = false) :
    ∃ f, ids_matchF f T (.Composition ⟨'⿲'⟩ [.Char a, .Char b, .Char c])
      (.Composition ⟨'⿰'⟩ [.Char a, .Composition ⟨'⿰'⟩ [.Char b, .Char c]]) w =
      .ok true := by
  have hWab : WFb (.Composition ⟨'⿰'⟩ [.Char a, .Char b]) = true := rfl
  have hWbc : WFb (.Composition ⟨'⿰'⟩ [.Char b, .Char c]) = true := rfl
  obtain ⟨f1, bl1, hf1⟩ := ids_matchF_terminates (w := w) hT hW hWab (show WFb (.Char a) = true from rfl)
  obtain ⟨f2, bl2, hf2⟩ := ids_matchF_terminates (w := w) hT hW (show WFb (.Char c) = true from rfl) hWbc
  have hg1 : ids_matchF (max (max f1 f2) 2) T (.Composition ⟨'⿰'⟩ [.Char a, .Char b])
      (.Char a) w = .ok bl1 := ids_matchF_mono_le (by omega) hf1
  have hg2 : ids_matchF (max (max f1 f2) 2) T (.Char c)
      (.Composition ⟨'⿰'⟩ [.Char b, .Char c]) w = .ok bl2 :=
    ids_matchF_mono_le (by omega) hf2
  have hg3 : ids_matchF (max (max f1 f2) 2) T (.Char a) (.Char a) w = .ok true :=
    ids_matchF_mono_le (show 0 + 1 ≤ max (max f1 f2) 2 by omega) (matchF_char_self ha)
  have hg4 : ids_matchF (max (max f1 f2) 2) T (.Composition ⟨'⿰'⟩ [.Char b, .Char c])
      (.Composition ⟨'⿰'⟩ [.Char b, .Char c]) w = .ok true :=
    ids_matchF_mono_le (show 0 + 2 ≤ max (max f1 f2) 2 by omega) (matchF_pair_self hb hc)
  refine ⟨max (max f1 f2) 2 + 1, ?_⟩
  rw [ids_matchF_succ, matchStep_comp_comp, if_neg (by decide), if_pos (by decide),
    regroup_eq (show IDC.reduce ⟨'⿲'⟩ = some ⟨'⿰'⟩ by decide)]
  rw [hg1, hg2, hg3, hg4]
  cases bl1 <;> cases bl2 <;> rfl

theorem matchF_char_comp_first_tag {f : Nat} {T : IDSTable} {k : Char} {yc : IDC}
    {ys : List IDS} {w : Char} {tags_ : List Tag}
    (hk : (k == w) = false) (htg : tagsGet T k = some tags_) :
    ids_matchF (f + 1) T (.Char k) (.Composition yc ys) w =
      match firstNonSelfAux T k tags_ with
      | some e => ids_matchF f T e (.Composition yc ys) w
      | none => .ok false := by
  rw [ids_matchF_succ, matchStep_char_comp hk, htg]
  exact expandLoop_eq_firstNonSelf

theorem hmsF_char_comp_first_tag {f : Nat} {T : IDSTable} {k : Char} {yc : IDC}
    {ys : List IDS} {w : Char} {tags_ : List Tag}
    (hk : (k == w) = false) (htg : tagsGet T k = some tags_)
    (hmid : ids_matchF f T (.Char k) (.Composition yc ys) w = .ok false) :
    ids_has_matching_subcomponentF (f + 1) T (.Char k) (.Composition yc ys) w =
      match firstNonSelfAux T k tags_ with
      | some e => ids_has_matching_subcomponentF f T e (.Composition yc ys) w
      | none => .ok false := by
  rw [hms_succ, hmsStep_char_comp hmid hk, htg]
  exact expandLoop_eq_firstNonSelf

theorem hsF_char_expandAll {f : Nat} {T : IDSTable} {x : Char} {needle : IDS}
    {tags_ : List Tag}
    (hne : (IDS.Char x : IDS) ≠ needle) (htg : tagsGet T x = some tags_) :
    ids_has_subcomponentF (f + 1) T (.Char x) needle =
      expandAll T x (fun e => ids_has_subcomponentF f T e needle) tags_ := by
  rw [hs_succ]
  rcases needle with y | t | ⟨yc, ys⟩
  · exact hsStep_char_char_tags (fun hh => hne (by rw [hh])) htg
  · exact hsStep_char_other_tags hne (fun y hh => IDS.noConfusion hh) htg
  · exact hsStep_char_other_tags hne (fun y hh => IDS.noConfusion hh) htg

theorem cycTable_loadable : load_from_string "0001 a b\n0002 b a" = some cycTable := by
  rfl

theorem load_file_short_line : load_file ["⿰"] = none := by rfl

theorem load_from_string_short_line :
    load_from_string "⿰" = some { table := [], tags := [] } := by rfl

end HanziSearch
namespace HanziSearch

theorem cyc_swap_diverges :
    ∀ f : Nat, ids_matchF f cycTable (.Composition ⟨'⿰'⟩ [.Char 'a', .Char 'b'])
      (.Char 'a') '.' = .error .fuelOut := by
  intro f
  cases f with
  | zero => rfl
  | succ f =>
    rw [ids_matchF_succ, matchStep_comp_char (by decide)]
    exact (cycTable_diverges f ⟨'⿰'⟩ [IDS.Char 'a', IDS.Char 'b']).1

theorem cyc_second_grouping_diverges :
    ∀ f : Nat, ids_matchF f cycTable
      (.Composition ⟨'⿲'⟩ [.Char 'a', .Char 'b', .Char 'c'])
      (.Composition ⟨'⿰'⟩ [.Char 'a', .Composition ⟨'⿰'⟩ [.Char 'b', .Char 'c']]) '.' =
      .error .fuelOut := by
  intro f
  cases f with
  | zero => rfl
  | succ f =>
    rw [ids_matchF_succ, matchStep_comp_comp, if_neg (by decide), if_pos (by decide),
      regroup_eq (show IDC.reduce ⟨'⿲'⟩ = some ⟨'⿰'⟩ by decide), cyc_swap_diverges f]
    rfl

/-- C1 (corrected): `ids_match` and `ids_has_matching_subcomponent` expand an
atom through the first tag whose recorded tree is not the atom itself and
return that single recursion's result, but `ids_has_subcomponent` tries every
tag in order, falling back to later tagged definitions when an earlier
recursion yields a non-match. -/
theorem C1_expansion_policy :
    (∀ (f : Nat) (T : IDSTable) (k : Char) (yc : IDC) (ys : List IDS) (w : Char)
        (tags_ : List Tag), (k == w) = false → tagsGet T k = some tags_ →
        ids_matchF (f + 1) T (.Char k) (.Composition yc ys) w =
          match firstNonSelfAux T k tags_ with
          | some e => ids_matchF f T e (.Composition yc ys) w
          | none => .ok false) ∧
    (∀ (f : Nat) (T : IDSTable) (k : Char) (yc : IDC) (ys : List IDS) (w : Char)
        (tags_ : List Tag), (k == w) = false → tagsGet T k = some tags_ →
        ids_matchF f T (.Char k) (.Composition yc ys) w = .ok false →
        ids_has_matching_subcomponentF (f + 1) T (.Char k) (.Composition yc ys) w =
          match firstNonSelfAux T k tags_ with
          | some e => ids_has_matching_subcomponentF f T e (.Composition yc ys) w
          | none => .ok false) ∧
    (∀ (f : Nat) (T : IDSTable) (x : Char) (needle : IDS) (tags_ : List Tag),
        (IDS.Char x : IDS) ≠ needle → tagsGet T x = some tags_ →
        ids_has_subcomponentF (f + 1) T (.Char x) needle =
          expandAll T x (fun e => ids_has_subcomponentF f T e needle) tags_) :=
  ⟨fun _ _ _ _ _ _ _ hk htg => matchF_char_comp_first_tag hk htg,
   fun _ _ _ _ _ _ _ hk htg hmid => hmsF_char_comp_first_tag hk htg hmid,
   fun _ _ _ _ _ hne htg => hsF_char_expandAll hne htg⟩

/-- C1, counterexample to the claimed no-fallback of `ids_has_subcomponent`:
on `twoTagTable` the first non-self expansion of `k` is `x`, recursing on `x`
fails, yet the predicate still succeeds through the second tag's tree `y`. -/
theorem C1_fallback_cex :
    firstNonSelf twoTagTable 'k' = some (.Char 'x') ∧
    ids_has_subcomponentF 2 twoTagTable (.Char 'x') (.Char 'y') = .ok false ∧
    ids_has_subcomponentF 3 twoTagTable (.Char 'k') (.Char 'y') = .ok true :=
  ⟨by decide, by decide, by decide⟩

/-- C2 (corrected): on a table admitting a rank function that strictly drops
along every non-self expansion (which every acyclic decomposition dictionary
admits) and whose recorded trees are well-formed, all three predicates
terminate with a boolean on well-formed inputs. -/
theorem C2_termination_on_ranked_tables {T : IDSTable} (rk : Char → Nat) {w : Char}
    {a b : IDS} (hT : rankedTable T rk = true) (hW : wfTable T = true)
    (ha : WFb a = true) (hb : WFb b = true) :
    (∃ f bl, ids_matchF f T a b w = .ok bl) ∧
    (∃ f bl, ids_has_matching_subcomponentF f T a b w = .ok bl) ∧
    (∃ f bl, ids_has_subcomponentF f T a b = .ok bl) :=
  ⟨ids_matchF_terminates hT hW ha hb,
   ids_has_matching_subcomponentF_terminates hT hW ha hb,
   ids_has_subcomponentF_terminates hT⟩

/-- C2, witness: the concrete loaded table `sampleTable` with rank
`sampleRank` satisfies every hypothesis, and the three predicates terminate
on `从` vs `人`. -/
theorem C2_termination_witness :
    (∃ f bl, ids_matchF f sampleTable (.Char '从') (.Char '人') '.' = .ok bl) ∧
    (∃ f bl, ids_has_matching_subcomponentF f sampleTable (.Char '从') (.Char '人') '.' =
      .ok bl) ∧
    (∃ f bl, ids_has_subcomponentF f sampleTable (.Char '从') (.Char '人') = .ok bl) :=
  C2_termination_on_ranked_tables sampleRank (by decide) (by decide)
    (by decide) (by decide)

/-- C2, counterexample to the unconditional claim: the cyclic table loads
from dictionary text, and matching `a` against a composition exhausts every
amount of fuel (the Rust recursion never returns). -/
theorem C2_cyclic_divergence_cex :
    load_from_string "0001 a b\n0002 b a" = some cycTable ∧
    (∀ f : Nat, ids_matchF f cycTable (.Char 'a')
      (.Composition ⟨'⿰'⟩ [.Char 'b', .Char 'b']) '.' = .error .fuelOut) :=
  ⟨cycTable_loadable, fun f => (cycTable_diverges f ⟨'⿰'⟩ [.Char 'b', .Char 'b']).1⟩

/-- C3 (code bug): `load_file` has no field-count guard, so a line with fewer
than two whitespace-separated fields makes `parts[1]` panic (modelled `none`)
and the whole load aborts, while `load_from_string` skips the same record and
returns the table of the remaining entries as the spec describes. -/
theorem C3_load_file_panics_on_short_line :
    load_file ["⿰"] = none ∧
    load_from_string "⿰" = some { table := [], tags := [] } :=
  ⟨rfl, rfl⟩

/-- C4: loaded tables never repeat a `Variant` label in one character's tag
list, and a record whose `(character, Variant)` key is already present is
stored under the fresh `Anon` tag indexed by the current list length, the
new tag is appended, and the original entry stays queryable unchanged. -/
theorem C4_tag_collision_invariant :
    (∀ (content : String) (T : IDSTable), load_from_string content = some T →
      ∀ (c : Char) (l : List Tag) (s : String), tagsGet T c = some l →
        l.count (Tag.Variant s) ≤ 1) ∧
    (∀ (lines : List String) (T : IDSTable), load_file lines = some T →
      ∀ (c : Char) (l : List Tag) (s : String), tagsGet T c = some l →
        l.count (Tag.Variant s) ≤ 1) ∧
    (∀ (st : IDSTable) (c : Char) (tids : TaggedIDS) (l : List Tag) (s : String)
        (e0 : IDS), tids.tag = Tag.Variant s →
        tableGet st (c, Tag.Variant s) = some e0 → tagsGet st c = some l →
        ∃ st2, insertTagged st c tids = some st2 ∧
          tableGet st2 (c, Tag.Anon l.length) = some tids.ids ∧
          tagsGet st2 c = some (l ++ [Tag.Anon l.length]) ∧
          tableGet st2 (c, Tag.Variant s) = some e0) := by
  refine ⟨?_, ?_, ?_⟩
  · intro content T h c l s hl
    exact (load_from_string_inv h).2.2 c l s hl
  · intro lines T h c l s hl
    exact (load_file_inv h).2.2 c l s hl
  · intro st c tids l s e0 htag hget hl
    have hk : (lookupA st.table (c, tids.tag)).isSome = true := by
      rw [htag]
      rw [tableGet] at hget
      rw [hget]
      rfl
    have hins : insertTagged st c tids =
        some { table := insertA st.table (c, Tag.Anon l.length) tids.ids,
               tags := pushTag st.tags c (Tag.Anon l.length) } := by
      rw [insertTagged, if_pos hk]
      rw [tagsGet] at hl
      rw [hl]
    refine ⟨_, hins, ?_, ?_, ?_⟩
    · rw [tableGet]
      exact lookupA_insertA_self _ _ _
    · rw [tagsGet, lookupA_pushTag_self]
      rw [tagsGet] at hl
      rw [hl]
      rfl
    · rw [tableGet,
        lookupA_insertA_ne (fun hh => Tag.noConfusion (congrArg Prod.snd hh))]
      rw [tableGet] at hget
      exact hget

/-- C5: `ids_match` is symmetric on well-formed trees: the defined results of
the two argument orders agree (at possibly different fuel). -/
theorem C5_match_symmetric {T : IDSTable} {w : Char} {a b : IDS} {r : Bool}
    (ha : WFb a = true) (hb : WFb b = true) :
    (∃ f, ids_matchF f T a b w = .ok r) ↔ (∃ f, ids_matchF f T b a w = .ok r) :=
  ⟨fun ⟨f, hf⟩ => ids_matchF_symm f a b r hf,
   fun ⟨f, hf⟩ => ids_matchF_symm f b a r hf⟩

/-- C5, witness: symmetry instantiated on `sampleTable` with the atom `从`
and its recorded decomposition. -/
theorem C5_symmetry_witness :
    (∃ f, ids_matchF f sampleTable (.Char '从')
        (.Composition ⟨'⿰'⟩ [.Char '人', .Char '人']) '.' = .ok true) ↔
    (∃ f, ids_matchF f sampleTable (.Composition ⟨'⿰'⟩ [.Char '人', .Char '人'])
        (.Char '从') '.' = .ok true) :=
  C5_match_symmetric (by decide) (by decide)

/-- C6: parse/render round trip: rendering a parsed tree and parsing again
returns exactly that tree. -/
theorem C6_round_trip {s : String} {t : IDS} (h : parse s = some t) :
    parse (render t) = some t :=
  round_trip_core h

/-- C6, witness: the round trip on the parsed tree of `⿰人人`. -/
theorem C6_round_trip_witness :
    parse (render (IDS.Composition ⟨'⿰'⟩ [.Char '人', .Char '人'])) =
      some (IDS.Composition ⟨'⿰'⟩ [.Char '人', .Char '人']) :=
  C6_round_trip (s := "⿰人人") (by decide)

/-- C7 (corrected): the ternary composition `(a,b,c)` matches the binary
grouping `(group(a,b), c)` over every table, but matching the grouping
`(a, group(b,c))` evaluates `match(group(a,b), a)` first, which expands `a`
through the table: the equivalence holds on ranked well-formed tables and
fails (diverges) on cyclic ones. -/
theorem C7_regroup_equivalence :
    (∀ (T : IDSTable) (a b c w : Char), (a == w) = false → (b == w) = false →
      (c == w) = false →
      ids_matchF 3 T (.Composition ⟨'⿲'⟩ [.Char a, .Char b, .Char c])
        (.Composition ⟨'⿰'⟩ [.Composition ⟨'⿰'⟩ [.Char a, .Char b], .Char c]) w =
        .ok true) ∧
    (∀ (T : IDSTable) (rk : Char → Nat) (a b c w : Char), rankedTable T rk = true →
      wfTable T = true → (a == w) = false → (b == w) = false → (c == w) = false →
      ∃ f, ids_matchF f T (.Composition ⟨'⿲'⟩ [.Char a, .Char b, .Char c])
        (.Composition ⟨'⿰'⟩ [.Char a, .Composition ⟨'⿰'⟩ [.Char b, .Char c]]) w =
        .ok true) :=
  ⟨fun _ _ _ _ _ ha hb hc => first_grouping_matches ha hb hc,
   fun _ _ _ _ _ _ hT hW ha hb hc => second_grouping_matches hT hW ha hb hc⟩

/-- C7, counterexample to the unconditional second grouping: on the loadable
cyclic table the match against `(a, group(b,c))` runs out of any fuel. -/
theorem C7_cyclic_cex :
    load_from_string "0001 a b\n0002 b a" = some cycTable ∧
    (∀ f : Nat, ids_matchF f cycTable
      (.Composition ⟨'⿲'⟩ [.Char 'a', .Char 'b', .Char 'c'])
      (.Composition ⟨'⿰'⟩ [.Char 'a', .Composition ⟨'⿰'⟩ [.Char 'b', .Char 'c']]) '.' =
      .error .fuelOut) :=
  ⟨cycTable_loadable, cyc_second_grouping_diverges⟩

/-- C8 (corrected): `ids_match` never panics — regrouping indexing and
`reduce().unwrap()` included — provided the trees recorded in the table are
well-formed too, not only the two arguments. -/
theorem C8_regroup_no_panic {T : IDSTable} {f : Nat} {a b : IDS} {w : Char}
    (hT : wfTable T = true) (ha : WFb a = true) (hb : WFb b = true) :
    ids_matchF f T a b w ≠ .error .panicked :=
  ids_matchF_no_panic hT ha hb

/-- C8, witness: no panic on `sampleTable` at a concrete well-formed pair. -/
theorem C8_no_panic_witness :
    ids_matchF 5 sampleTable (.Char '从')
      (.Composition ⟨'⿰'⟩ [.Char '人', .Char '人']) '.' ≠ .error .panicked :=
  C8_regroup_no_panic (by decide) (by decide) (by decide)

/-- C8, counterexample to the claim as stated (which assumes only the two
input trees well-formed): a table recording an ill-formed ternary tree drives
the regroup branch out of bounds, a panic, from well-formed inputs. -/
theorem C8_ill_formed_table_cex :
    WFb (.Char 'k') = true ∧
    WFb (.Composition ⟨'⿰'⟩ [.Char 'u', .Char 'v']) = true ∧
    ids_matchF 2 illFormedTable (.Char 'k')
      (.Composition ⟨'⿰'⟩ [.Char 'u', .Char 'v']) '.' = .error .panicked :=
  ⟨by decide, by decide, by decide⟩

/-- C9: a trailing empty tag bracket `[]` after a parseable tree makes
`parse_tagged` fail instead of yielding an empty `Variant` label. -/
theorem C9_empty_tag_rejected {s : String} {t : IDS} (h : parse s = some t) :
    parse_tagged (s ++ "[]") = none :=
  parse_tagged_trailing_empty h

/-- C9, witness: `人[]` is rejected. -/
theorem C9_empty_tag_witness : parse_tagged ("人" ++ "[]") = none :=
  C9_empty_tag_rejected (t := .Char '人') (by decide)

/-- C10: with no needles, `search_find` succeeds and returns every key of
the table, sorted: the filter keeps each entry (the needle condition is
vacuous), and the result is a sorted permutation of the key list. -/
theorem C10_empty_needles_all_keys :
    ∀ (fuel : Nat) (T : IDSTable),
      search_findF fuel T [] = .ok (some (sortBy keyLe (T.table.map Prod.fst))) ∧
      (sortBy keyLe (T.table.map Prod.fst)).Perm (T.table.map Prod.fst) ∧
      List.Chain' (fun a b => keyLe a b = true) (sortBy keyLe (T.table.map Prod.fst)) :=
  fun _ T => ⟨search_findF_nil, sortBy_perm _, sortBy_chain keyLe_total _⟩

end HanziSearch
